import Mathlib

/-!
Verification of the `ProjectFilePacker` module
(`src/util/project_file_packer.py`).

The Python module is embedded shallowly:

* Python `str` values are Lean `String`s (sequences of Unicode scalar
  values).
* Filesystem paths are modelled as lists of path components
  (`FsPath := List String`), standing for resolved absolute POSIX paths;
  the string `file_path` / `output_path` arguments of `json2file`, which
  the code immediately feeds through `Path(...).expanduser().resolve()`,
  enter the model already in this resolved component form.  Components
  are assumed to be nonempty and slash-free, which is what
  `resolve()` produces.
* The filesystem is a finite association list from absolute paths to
  nodes (text file, directory, or zip archive).  All operations of
  `pathlib` / `os` / `shutil` / `zipfile` used by the code are embedded
  as explicit state-passing functions on this structure.  There are no
  symbolic links in the model, so `Path.resolve` of a root joined with
  a relative path with no `..`/`.` segments is plain concatenation.
* `pathlib.PurePosixPath` string parsing (the POSIX flavour, as on the
  Linux hosts the repository targets) is embedded by `pathParts` /
  `isAbsolutePath`: splitting on `'/'` and dropping empty and `"."`
  segments, exactly as `PurePosixPath(...).parts` does.
* Exceptions are embedded as `Except` / explicit `(state, outcome)`
  pairs.  `FilePackError` is refined into the error kinds named by the
  spec (`invalidFileMap`, `invalidJson`, `invalidProjectName`,
  `unsafePath`), plus `osError` for uncaught `OSError`s.
-/

/-! ## Characters, splitting and joining -/

/-- Split a character list at every occurrence of `sep`, keeping empty
segments (the semantics of Python `str.split(sep)`), so the result is
always nonempty. -/
def splitOnChar (sep : Char) : List Char → List (List Char)
  | [] => [[]]
  | c :: rest =>
    match splitOnChar sep rest with
    | [] => [[]]
    | s :: ss => if c = sep then [] :: s :: ss else (c :: s) :: ss

theorem splitOnChar_ne_nil (sep : Char) (l : List Char) :
    splitOnChar sep l ≠ [] := by
  cases l with
  | nil => simp [splitOnChar]
  | cons c rest =>
    simp only [splitOnChar]
    cases h : splitOnChar sep rest with
    | nil => simp
    | cons s ss => by_cases hc : c = sep <;> simp [hc]

/-- Joining with the separator undoes `splitOnChar`. -/
theorem intercalate_splitOnChar (sep : Char) (l : List Char) :
    List.intercalate [sep] (splitOnChar sep l) = l := by
  induction l with
  | nil => simp [splitOnChar, List.intercalate]
  | cons c rest ih =>
    cases h : splitOnChar sep rest with
    | nil => exact absurd h (splitOnChar_ne_nil sep rest)
    | cons s ss =>
      by_cases hc : c = sep
      · subst hc
        simp only [splitOnChar, h, if_pos rfl]
        rw [← ih]
        simp [List.intercalate, h, List.intersperse]
      · simp only [splitOnChar, h, if_neg hc]
        rw [← ih]
        cases ss with
        | nil => simp [List.intercalate, h, List.intersperse]
        | cons t ts => simp [List.intercalate, h, List.intersperse]

/-- The raw `'/'`-separated segments of a string (a Python
`s.split('/')`). -/
def rawSegs (s : String) : List (List Char) := splitOnChar '/' s.data

/-- Render a list of path components joined by `'/'` (the `str()` of a
relative `PurePosixPath` whose parts are the components). -/
def joinSlash (ps : List String) : String :=
  ⟨List.intercalate ['/'] (ps.map String.data)⟩

/-- Python's `needle in hay` substring test. -/
def strContainsSub (hay needle : String) : Prop :=
  needle.data <:+: hay.data

instance (hay needle : String) : Decidable (strContainsSub hay needle) := by
  unfold strContainsSub; infer_instance

/-! ## Embedded `pathlib.PurePosixPath` string parsing -/

/-- `PurePosixPath(s).is_absolute()`: the path starts from the
filesystem root. -/
def isAbsolutePath (s : String) : Bool :=
  match s.data with
  | c :: _ => c = '/'
  | [] => false

/-- `PurePosixPath(s).parts` (without the root entry): split on `'/'`
and drop empty and `"."` segments.  `".."` segments are kept. -/
def pathParts (s : String) : List String :=
  ((rawSegs s).filter (fun seg => seg ≠ [] ∧ seg ≠ ['.'])).map (fun l => (⟨l⟩ : String))

/-! ## Python values, inputs, JSON and errors -/

/-- A Python value as far as `_ensure_str_str_dict` can observe it:
either a `str`, or some non-`str` object (opaque here, since the code
only ever applies `isinstance(x, str)` to it). -/
inductive PyVal where
  | str (s : String)
  | nonStr
deriving DecidableEq, Repr

/-- The `FileMapInput = Union[str, Dict[str, str]]` argument, plus the
"any other type" case rejected at the end of `_parse_file_map`.  A
`dict` is an insertion-ordered association list with pairwise distinct
keys (the invariant of a Python `dict`). -/
inductive FileMapInput where
  | dict (items : List (PyVal × PyVal))
  | text (s : String)
  | other
deriving DecidableEq, Repr

/-- The result of `json.loads`.  Numbers keep their source lexeme: no
claim depends on numeric values, only on the fact that a JSON number is
not a `str`. -/
inductive Json where
  | null
  | bool (b : Bool)
  | num (lexeme : String)
  | str (s : String)
  | arr (xs : List Json)
  | obj (kvs : List (String × Json))

/-- `FilePackError`, refined into the kinds the spec names, plus
`osError` for an uncaught `OSError` escaping `json2file`. -/
inductive OsErr where
  | fileExists
  | isADirectory
  | notADirectory
  | noSuchFile
deriving DecidableEq, Repr

inductive Err where
  | invalidFileMap
  | invalidJson
  | invalidProjectName
  | unsafePath
  | osError (e : OsErr)
deriving DecidableEq, Repr

/-- The validation kinds of `FilePackError` (everything but an
`OSError`). -/
def Err.isValidationKind : Err → Prop
  | .osError _ => False
  | _ => True

instance (e : Err) : Decidable e.isValidationKind := by
  cases e <;> simp [Err.isValidationKind] <;> infer_instance

/-! ## The filesystem model -/

/-- Absolute resolved path: list of components under the root. -/
abbrev FsPath := List String

/-- A filesystem node: a UTF-8 text file, a directory, or a zip archive
(entries as `arcname ↦ text content`).  A zip archive is a regular file
to `Path.is_file`; its entry list is kept structured so that the
archive contents can be stated. -/
inductive Node where
  | file (content : String)
  | dir
  | zipf (entries : List (String × String))
deriving DecidableEq, Repr

/-- The filesystem: an association list from absolute paths to nodes,
in creation order (standing in for on-disk directory enumeration
order).  Keys are pairwise distinct in every state the operations
produce. -/
structure FS where
  entries : List (FsPath × Node)
deriving DecidableEq, Repr

def lookupEntries : List (FsPath × Node) → FsPath → Option Node
  | [], _ => none
  | e :: rest, p => if e.1 = p then some e.2 else lookupEntries rest p

def FS.lookup (fs : FS) (p : FsPath) : Option Node :=
  lookupEntries fs.entries p

/-- `Path.exists()`.  The root `[]` always exists. -/
def FS.pathExists (fs : FS) (p : FsPath) : Prop :=
  p = [] ∨ (fs.lookup p).isSome

instance (fs : FS) (p : FsPath) : Decidable (fs.pathExists p) := by
  unfold FS.pathExists; infer_instance

/-- The path is the root or an existing directory. -/
def FS.isDirAt (fs : FS) (p : FsPath) : Prop :=
  p = [] ∨ fs.lookup p = some .dir

instance (fs : FS) (p : FsPath) : Decidable (fs.isDirAt p) := by
  unfold FS.isDirAt; infer_instance

def setEntries : List (FsPath × Node) → FsPath → Node → List (FsPath × Node)
  | [], p, n => [(p, n)]
  | e :: rest, p, n => if e.1 = p then (p, n) :: rest else e :: setEntries rest p n

/-- Create or overwrite the node stored at `p`. -/
def FS.setNode (fs : FS) (p : FsPath) (n : Node) : FS :=
  ⟨setEntries fs.entries p n⟩

/-- `path.mkdir(parents=True, exist_ok=True)`, walking the components
from the root: an existing directory on the way is fine, an existing
non-directory raises. -/
def mkdirGo (fs : FS) (done : FsPath) : List String → Except OsErr FS
  | [] => .ok fs
  | c :: rest =>
    let q := done ++ [c]
    match fs.lookup q with
    | some .dir => mkdirGo fs q rest
    | some _ => .error .fileExists
    | none => mkdirGo (fs.setNode q .dir) q rest

def FS.mkdirP (fs : FS) (p : FsPath) : Except OsErr FS :=
  mkdirGo fs [] p

/-- `path.write_text(content, encoding="utf-8")`: the parent must be a
directory, the path itself must not be a directory; an existing regular
file is overwritten. -/
def FS.writeText (fs : FS) (p : FsPath) (content : String) : Except OsErr FS :=
  if p = [] then .error .isADirectory
  else
    match fs.lookup p with
    | some .dir => .error .isADirectory
    | _ =>
      if fs.isDirAt p.dropLast then .ok (fs.setNode p (.file content))
      else .error .noSuchFile

/-- `shutil.rmtree(p)`: `p` must be a directory; it is removed together
with everything below it. -/
def FS.rmtree (fs : FS) (p : FsPath) : Except OsErr FS :=
  match fs.lookup p with
  | some .dir => .ok ⟨fs.entries.filter (fun e => ¬ p <+: e.1)⟩
  | some _ => .error .notADirectory
  | none => .error .noSuchFile

/-- `path.unlink()`: removes a regular file; a directory raises. -/
def FS.unlink (fs : FS) (p : FsPath) : Except OsErr FS :=
  match fs.lookup p with
  | some .dir => .error .isADirectory
  | some _ => .ok ⟨fs.entries.filter (fun e => e.1 ≠ p)⟩
  | none => .error .noSuchFile

/-- `zipfile.ZipFile(p, "w")` followed by the entry writes and close:
creates (or truncates) the archive file at `p`, whose parent must be a
directory. -/
def FS.writeZip (fs : FS) (p : FsPath) (es : List (String × String)) : Except OsErr FS :=
  if p = [] then .error .isADirectory
  else
    match fs.lookup p with
    | some .dir => .error .isADirectory
    | _ =>
      if fs.isDirAt p.dropLast then .ok (fs.setNode p (.zipf es))
      else .error .noSuchFile

/-- `src_dir.rglob("*")` restricted to `is_file()` hits, paired with
their text contents, in filesystem enumeration order.  (An archive
nested inside `srcDir` never occurs in the runs the theorems describe:
the hypotheses keep the output directory outside the staging tree.) -/
def FS.filesUnder (fs : FS) (srcDir : FsPath) : List (FsPath × String) :=
  fs.entries.filterMap (fun e =>
    match e.2 with
    | .file c => if srcDir <+: e.1 ∧ e.1 ≠ srcDir then some (e.1, c) else none
    | _ => none)

/-! ## Embedded `json.dumps` (default options) for a `str -> str` dict -/

/-- Lowercase hex digit, as Python's `json` encoder emits. -/
def hexDigitChar (n : Nat) : Char :=
  if n < 10 then Char.ofNat (48 + n) else Char.ofNat (87 + n)

/-- Four lowercase hex digits of `n < 0x10000`. -/
def hex4Chars (n : Nat) : List Char :=
  [hexDigitChar (n / 4096 % 16), hexDigitChar (n / 256 % 16),
   hexDigitChar (n / 16 % 16), hexDigitChar (n % 16)]

/-- `py_encode_basestring_ascii` on one character: shorthand escapes
for `"` `\` and the common control characters, `\u00XX` for the other
control characters, raw ASCII otherwise, and `\uXXXX` (with surrogate
pairs beyond the BMP) for every character of code point `0x7f` and
above, since `ensure_ascii` defaults to true. -/
def escapeChar (c : Char) : List Char :=
  if c = '"' then ['\\', '"']
  else if c = '\\' then ['\\', '\\']
  else
    let n := c.toNat
    if n = 8 then ['\\', 'b']
    else if n = 9 then ['\\', 't']
    else if n = 10 then ['\\', 'n']
    else if n = 12 then ['\\', 'f']
    else if n = 13 then ['\\', 'r']
    else if n < 0x20 then '\\' :: 'u' :: hex4Chars n
    else if n < 0x7f then [c]
    else if n < 0x10000 then '\\' :: 'u' :: hex4Chars n
    else
      ('\\' :: 'u' :: hex4Chars (0xD800 + (n - 0x10000) / 0x400)) ++
      ('\\' :: 'u' :: hex4Chars (0xDC00 + (n - 0x10000) % 0x400))

/-- A JSON string literal: quote, escaped characters, quote. -/
def encodeJsonString (s : String) : List Char :=
  '"' :: s.data.flatMap escapeChar ++ ['"']

/-- One `"key": "value"` member (`json.dumps` default key separator is
`": "`). -/
def memberChars (kv : String × String) : List Char :=
  encodeJsonString kv.1 ++ ':' :: ' ' :: encodeJsonString kv.2

/-- `json.dumps(d)` with default options for an insertion-ordered
`str -> str` dict `d` (item separator `", "`). -/
def pyDumps (d : List (String × String)) : String :=
  ⟨'{' :: List.intercalate [',', ' '] (d.map memberChars) ++ ['}']⟩

/-! ## Embedded `json.loads` -/

/-- JSON whitespace skipped by the decoder. -/
def isJsonWs (c : Char) : Bool :=
  c = ' ' || c = '\t' || c = '\n' || c = '\r'

def skipWs : List Char → List Char
  | [] => []
  | c :: rest => if isJsonWs c then skipWs rest else c :: rest

/-- Value of one hex digit (either case). -/
def hexVal (c : Char) : Option Nat :=
  let n := c.toNat
  if 48 ≤ n ∧ n ≤ 57 then some (n - 48)
  else if 97 ≤ n ∧ n ≤ 102 then some (n - 87)
  else if 65 ≤ n ∧ n ≤ 70 then some (n - 55)
  else none

def hex4Val (a b c d : Char) : Option Nat :=
  match hexVal a, hexVal b, hexVal c, hexVal d with
  | some x, some y, some z, some w => some (x * 4096 + y * 256 + z * 16 + w)
  | _, _, _, _ => none

/-- The shorthand escapes accepted after a backslash. -/
def escMap (c : Char) : Option Char :=
  if c = '"' then some '"'
  else if c = '\\' then some '\\'
  else if c = '/' then some '/'
  else if c = 'b' then some (Char.ofNat 8)
  else if c = 'f' then some (Char.ofNat 12)
  else if c = 'n' then some '\n'
  else if c = 'r' then some '\r'
  else if c = 't' then some '\t'
  else none

/-- Body of a JSON string literal, after the opening quote: returns the
decoded characters and the input following the closing quote.  A
`\uXXXX` high surrogate followed by a low surrogate is combined into
one scalar value.  (CPython keeps an unpaired surrogate escape as a
lone-surrogate code point in the resulting `str`; such a `str` has no
Lean `String` counterpart, so the model rejects it instead.  No claim
exercises this corner: `json.dumps` output never contains unpaired
surrogate escapes.) -/
def parseJStringBody : List Char → Except String (List Char × List Char)
  | [] => .error "Unterminated string"
  | '"' :: rest => .ok ([], rest)
  | '\\' :: 'u' :: a :: b :: c :: d :: rest =>
    match hex4Val a b c d with
    | none => .error "Invalid uXXXX escape"
    | some n =>
      if 0xD800 ≤ n ∧ n ≤ 0xDBFF then
        match rest with
        | '\\' :: 'u' :: a2 :: b2 :: c2 :: d2 :: rest2 =>
          match hex4Val a2 b2 c2 d2 with
          | none => .error "Invalid uXXXX escape"
          | some m =>
            if 0xDC00 ≤ m ∧ m ≤ 0xDFFF then
              match parseJStringBody rest2 with
              | .ok (s, r) =>
                .ok (Char.ofNat (0x10000 + (n - 0xD800) * 0x400 + (m - 0xDC00)) :: s, r)
              | .error e => .error e
            else .error "Unpaired surrogate"
        | _ => .error "Unpaired surrogate"
      else if 0xDC00 ≤ n ∧ n ≤ 0xDFFF then .error "Unpaired surrogate"
      else
        match parseJStringBody rest with
        | .ok (s, r) => .ok (Char.ofNat n :: s, r)
        | .error e => .error e
  | '\\' :: e :: rest =>
    match escMap e with
    | some c =>
      match parseJStringBody rest with
      | .ok (s, r) => .ok (c :: s, r)
      | .error msg => .error msg
    | none => .error "Invalid escape"
  | c :: rest =>
    if c.toNat < 0x20 then .error "Invalid control character"
    else
      match parseJStringBody rest with
      | .ok (s, r) => .ok (c :: s, r)
      | .error e => .error e

def takeDigits : List Char → List Char × List Char
  | [] => ([], [])
  | c :: rest =>
    if c.isDigit then
      let pr := takeDigits rest
      (c :: pr.1, pr.2)
    else ([], c :: rest)

/-- The integer part of the `json` number regex, `(0|[1-9]\d*)`:
a single `0`, or a nonzero digit followed by digits. -/
def parseIntPart : List Char → Option (List Char × List Char)
  | [] => none
  | c :: rest =>
    if c = '0' then some (['0'], rest)
    else if c.isDigit then
      let pr := takeDigits rest
      some (c :: pr.1, pr.2)
    else none

/-- The optional fraction part `(\.\d+)?`: consumed only when a dot is
followed by at least one digit. -/
def parseFracPart (cs : List Char) : List Char × List Char :=
  match cs with
  | '.' :: rest =>
    match takeDigits rest with
    | ([], _) => ([], cs)
    | (ds, r) => ('.' :: ds, r)
  | _ => ([], cs)

/-- The optional exponent part `([eE][-+]?\d+)?`: consumed only when
complete. -/
def parseExpPart (cs : List Char) : List Char × List Char :=
  match cs with
  | e :: s :: rest =>
    if e = 'e' ∨ e = 'E' then
      if s = '+' ∨ s = '-' then
        match takeDigits rest with
        | ([], _) => ([], cs)
        | (ds, r) => (e :: s :: ds, r)
      else
        match takeDigits (s :: rest) with
        | ([], _) => ([], cs)
        | (ds, r) => (e :: ds, r)
    else ([], cs)
  | _ => ([], cs)

/-- A JSON number at the head of the input, as matched by the decoder's
`NUMBER_RE`; the lexeme is kept verbatim. -/
def parseNumber (cs : List Char) : Except String (Json × List Char) :=
  match cs with
  | '-' :: rest =>
    match parseIntPart rest with
    | none => .error "Expecting value"
    | some (ilex, r1) =>
      let fr := parseFracPart r1
      let ex := parseExpPart fr.2
      .ok (.num ⟨'-' :: ilex ++ fr.1 ++ ex.1⟩, ex.2)
  | _ =>
    match parseIntPart cs with
    | none => .error "Expecting value"
    | some (ilex, r1) =>
      let fr := parseFracPart r1
      let ex := parseExpPart fr.2
      .ok (.num ⟨ilex ++ fr.1 ++ ex.1⟩, ex.2)

/-- `dict(pairs)` insertion: an existing key keeps its position and
takes the new value, a new key goes to the end. -/
def upsertPair (kvs : List (String × Json)) (k : String) (v : Json) :
    List (String × Json) :=
  if kvs.any (fun p => p.1 = k) then
    kvs.map (fun p => if p.1 = k then (k, v) else p)
  else kvs ++ [(k, v)]

/-- `dict(pairs)`: fold the parsed members into a dict (duplicate keys:
first position, last value). -/
def collapsePairs (l : List (String × Json)) : List (String × Json) :=
  l.foldl (fun acc kv => upsertPair acc kv.1 kv.2) []

/-- The members of an object after `{` (first member already known not
to be `}`), given a parser `pv` for values.  The fuel only bounds the
recursion; `pyLoads` always supplies enough. -/
def parseMembers (pv : List Char → Except String (Json × List Char)) :
    Nat → List Char → Except String (List (String × Json) × List Char)
  | 0, _ => .error "Out of fuel"
  | fuel + 1, cs =>
    match cs with
    | '"' :: rest =>
      match parseJStringBody rest with
      | .error e => .error e
      | .ok (k, r1) =>
        match skipWs r1 with
        | ':' :: r2 =>
          match pv (skipWs r2) with
          | .error e => .error e
          | .ok (v, r3) =>
            match skipWs r3 with
            | ',' :: r4 =>
              match parseMembers pv fuel (skipWs r4) with
              | .error e => .error e
              | .ok (ms, r5) => .ok ((⟨k⟩, v) :: ms, r5)
            | '}' :: r4 => .ok ([(⟨k⟩, v)], r4)
            | _ => .error "Expecting delimiter"
        | _ => .error "Expecting colon delimiter"
    | _ => .error "Expecting property name enclosed in double quotes"

/-- The elements of an array after `[` (first element already known not
to be `]`). -/
def parseElems (pv : List Char → Except String (Json × List Char)) :
    Nat → List Char → Except String (List Json × List Char)
  | 0, _ => .error "Out of fuel"
  | fuel + 1, cs =>
    match pv cs with
    | .error e => .error e
    | .ok (v, r1) =>
      match skipWs r1 with
      | ',' :: r2 =>
        match parseElems pv fuel (skipWs r2) with
        | .error e => .error e
        | .ok (xs, r3) => .ok (v :: xs, r3)
      | ']' :: r2 => .ok (v :: [], r2)
      | _ => .error "Expecting delimiter"

/-- One JSON value at the head of the (whitespace-skipped) input:
strings, objects, arrays, the three literals, the three non-finite
`parse_constant` spellings accepted by `json.loads`, and numbers. -/
def parseValue : Nat → List Char → Except String (Json × List Char)
  | 0, _ => .error "Out of fuel"
  | fuel + 1, cs =>
    match cs with
    | '"' :: rest =>
      match parseJStringBody rest with
      | .error e => .error e
      | .ok (s, r) => .ok (.str ⟨s⟩, r)
    | '{' :: rest =>
      match skipWs rest with
      | '}' :: r2 => .ok (.obj [], r2)
      | cs2 =>
        match parseMembers (parseValue fuel) fuel cs2 with
        | .error e => .error e
        | .ok (ms, r2) => .ok (.obj (collapsePairs ms), r2)
    | '[' :: rest =>
      match skipWs rest with
      | ']' :: r2 => .ok (.arr [], r2)
      | cs2 =>
        match parseElems (parseValue fuel) fuel cs2 with
        | .error e => .error e
        | .ok (xs, r2) => .ok (.arr xs, r2)
    | 'n' :: 'u' :: 'l' :: 'l' :: rest => .ok (.null, rest)
    | 't' :: 'r' :: 'u' :: 'e' :: rest => .ok (.bool true, rest)
    | 'f' :: 'a' :: 'l' :: 's' :: 'e' :: rest => .ok (.bool false, rest)
    | 'N' :: 'a' :: 'N' :: rest => .ok (.num "NaN", rest)
    | 'I' :: 'n' :: 'f' :: 'i' :: 'n' :: 'i' :: 't' :: 'y' :: rest =>
      .ok (.num "Infinity", rest)
    | '-' :: 'I' :: 'n' :: 'f' :: 'i' :: 'n' :: 'i' :: 't' :: 'y' :: rest =>
      .ok (.num "-Infinity", rest)
    | _ => parseNumber cs

/-- `json.loads(s)`: skip surrounding whitespace, read one value, and
require the input to be exhausted.  The fuel is ample: every recursion
level consumes at least one input character. -/
def pyLoads (s : String) : Except String Json :=
  let cs := skipWs s.data
  match parseValue (cs.length + 1) cs with
  | .error e => .error e
  | .ok (j, rest) => if skipWs rest = [] then .ok j else .error "Extra data"

/-! ## The packer: parsing and validation -/

/-- How `_ensure_str_str_dict` sees a decoded JSON value: a `str`, or
some non-`str` object. -/
def jsonToPy : Json → PyVal
  | .str s => .str s
  | _ => .nonStr

/-- `ProjectFilePacker._ensure_str_str_dict`: every key and value must
be a `str`; the first offender raises `FilePackError`
(`InvalidFileMap`). -/
def _ensure_str_str_dict : List (PyVal × PyVal) → Except Err (List (String × String))
  | [] => .ok []
  | (k, v) :: rest =>
    match k with
    | .str ks =>
      match v with
      | .str vs =>
        match _ensure_str_str_dict rest with
        | .error e => .error e
        | .ok out => .ok ((ks, vs) :: out)
      | .nonStr => .error .invalidFileMap
    | .nonStr => .error .invalidFileMap

/-- `ProjectFilePacker._parse_file_map`: a dict is checked, a string is
JSON-decoded (`InvalidJson` on decode failure, `InvalidFileMap` when
the decoded value is not an object) and checked, anything else is
`InvalidFileMap`. -/
def _parse_file_map : FileMapInput → Except Err (List (String × String))
  | .dict items => _ensure_str_str_dict items
  | .text s =>
    match pyLoads s with
    | .error _ => .error .invalidJson
    | .ok (.obj kvs) =>
      _ensure_str_str_dict (kvs.map (fun kv => (.str kv.1, jsonToPy kv.2)))
    | .ok _ => .error .invalidFileMap
  | .other => .error .invalidFileMap

/-- `ProjectFilePacker._validate_project_name`: nonempty, no `/` or
`\`, no `..` substring. -/
def _validate_project_name (project_name : String) : Except Err Unit :=
  if project_name = "" then .error .invalidProjectName
  else if strContainsSub project_name "/" ∨ strContainsSub project_name "\\" then
    .error .invalidProjectName
  else if strContainsSub project_name ".." then .error .invalidProjectName
  else .ok ()

/-- `ProjectFilePacker._sanitize_relpath`: reject absolute paths and
any `..` or empty part; return the parts of the safe relative path. -/
def _sanitize_relpath (rel_path : String) : Except Err (List String) :=
  if isAbsolutePath rel_path then .error .unsafePath
  else if (pathParts rel_path).any (fun part => part == ".." || part == "") then
    .error .unsafePath
  else .ok (pathParts rel_path)

/-! ## The packer: filesystem steps -/

/-- Models `str(target).startswith(str(root) + os.sep)` for resolved
paths in component form: `target` lies strictly below `root`. -/
def startsWithSepOf (target root : FsPath) : Prop :=
  root <+: target ∧ target ≠ root

instance (target root : FsPath) : Decidable (startsWithSepOf target root) := by
  unfold startsWithSepOf; exact instDecidableAnd

/-- One iteration of the `_write_files` loop: sanitize the key, resolve
the target, re-check containment in the staging root, create parent
directories, write the text. -/
def writeOne (fs : FS) (root : FsPath) (rel content : String) : FS × Except Err Unit :=
  match _sanitize_relpath rel with
  | .error e => (fs, .error e)
  | .ok parts =>
    let target := root ++ parts
    if ¬ startsWithSepOf target root ∧ target ≠ root then (fs, .error .unsafePath)
    else
      match fs.mkdirP target.dropLast with
      | .error e => (fs, .error (.osError e))
      | .ok fs1 =>
        match fs1.writeText target content with
        | .error e => (fs1, .error (.osError e))
        | .ok fs2 => (fs2, .ok ())

/-- `ProjectFilePacker._write_files` over the insertion-ordered map. -/
def _write_files (fs : FS) (root : FsPath) :
    List (String × String) → FS × Except Err Unit
  | [] => (fs, .ok ())
  | (rel, content) :: rest =>
    match writeOne fs root rel content with
    | (fs1, .error e) => (fs1, .error e)
    | (fs1, .ok ()) => _write_files fs1 root rest

/-- `ProjectFilePacker._ensure_dir`. -/
def _ensure_dir (fs : FS) (p : FsPath) : FS × Except Err Unit :=
  match fs.mkdirP p with
  | .error e => (fs, .error (.osError e))
  | .ok fs1 => (fs1, .ok ())

/-- `ProjectFilePacker._recreate_dir`: remove the directory if present,
then create it fresh. -/
def _recreate_dir (fs : FS) (p : FsPath) : FS × Except Err Unit :=
  if fs.pathExists p then
    match fs.rmtree p with
    | .error e => (fs, .error (.osError e))
    | .ok fs1 => _ensure_dir fs1 p
  else _ensure_dir fs p

/-- `ProjectFilePacker._safe_remove_dir`: best-effort removal; any
failure is swallowed. -/
def _safe_remove_dir (fs : FS) (p : FsPath) : FS :=
  if fs.pathExists p then
    match fs.rmtree p with
    | .ok fs1 => fs1
    | .error _ => fs
  else fs

/-- `ProjectFilePacker._make_zip`: delete an existing archive at the
target, then store every regular file below `src_dir` under its path
relative to the parent of `src_dir`. -/
def _make_zip (fs : FS) (src_dir out_dir : FsPath) (zip_name : String) :
    FS × Except Err FsPath :=
  let zip_path := out_dir ++ [zip_name]
  let step1 : FS × Except Err Unit :=
    if fs.pathExists zip_path then
      match fs.unlink zip_path with
      | .error e => (fs, .error (.osError e))
      | .ok fs1 => (fs1, .ok ())
    else (fs, .ok ())
  match step1 with
  | (fs1, .error e) => (fs1, .error e)
  | (fs1, .ok ()) =>
    let entries := (fs1.filesUnder src_dir).map
      (fun pr => (joinSlash (pr.1.drop src_dir.dropLast.length), pr.2))
    match fs1.writeZip zip_path entries with
    | .error e => (fs1, .error (.osError e))
    | .ok fs2 => (fs2, .ok zip_path)

/-- The body of the `try` block of `json2file`: recreate the staging
directory, write the files, build the archive. -/
def packCore (fs : FS) (m : List (String × String)) (tmpDir outDir : FsPath)
    (projectName : String) : FS × Except Err FsPath :=
  match _recreate_dir fs tmpDir with
  | (fs1, .error e) => (fs1, .error e)
  | (fs1, .ok ()) =>
    match _write_files fs1 tmpDir m with
    | (fs2, .error e) => (fs2, .error e)
    | (fs2, .ok ()) => _make_zip fs2 tmpDir outDir (projectName ++ ".zip")

/-- `ProjectFilePacker.json2file`: parse the map, validate the name,
ensure the base and output directories, then run the staging scope with
the guaranteed cleanup of the staging directory, which never changes
the outcome.  The returned path is the archive path of `PackResult`. -/
def json2file (fs : FS) (file_map : FileMapInput) (basePath outPath : FsPath)
    (projectName : String) : FS × Except Err FsPath :=
  match _parse_file_map file_map with
  | .error e => (fs, .error e)
  | .ok m =>
    match _validate_project_name projectName with
    | .error e => (fs, .error e)
    | .ok () =>
      let tmpDir := basePath ++ [projectName]
      match _ensure_dir fs basePath with
      | (fs1, .error e) => (fs1, .error e)
      | (fs1, .ok ()) =>
        match _ensure_dir fs1 outPath with
        | (fs2, .error e) => (fs2, .error e)
        | (fs2, .ok ()) =>
          match packCore fs2 m tmpDir outPath projectName with
          | (fs3, r) => (_safe_remove_dir fs3 tmpDir, r)

/-! ## The storage demo (`file2storage`) -/

inductive StorageErr where
  | fileNotFound
deriving DecidableEq, Repr

/-- The UTF-8 bytes of one scalar value. -/
def utf8Bytes (c : Char) : List Nat :=
  let n := c.toNat
  if n < 0x80 then [n]
  else if n < 0x800 then [0xC0 + n / 64, 0x80 + n % 64]
  else if n < 0x10000 then [0xE0 + n / 4096, 0x80 + n / 64 % 64, 0x80 + n % 64]
  else [0xF0 + n / 262144, 0x80 + n / 4096 % 64, 0x80 + n / 64 % 64, 0x80 + n % 64]

/-- `urllib.parse.quote` keeps ASCII letters, digits, `_.-~` and (by
its default `safe='/'`) the slash. -/
def quoteSafeByte (b : Nat) : Prop :=
  (48 ≤ b ∧ b ≤ 57) ∨ (65 ≤ b ∧ b ≤ 90) ∨ (97 ≤ b ∧ b ≤ 122) ∨
    b = 95 ∨ b = 46 ∨ b = 45 ∨ b = 126 ∨ b = 47

instance (b : Nat) : Decidable (quoteSafeByte b) := by
  unfold quoteSafeByte; infer_instance

/-- Uppercase hex digit, as `quote` emits in `%XX`. -/
def hexUpperChar (n : Nat) : Char :=
  if n < 10 then Char.ofNat (48 + n) else Char.ofNat (55 + n)

def quoteByte (b : Nat) : List Char :=
  if quoteSafeByte b then [Char.ofNat b]
  else ['%', hexUpperChar (b / 16), hexUpperChar (b % 16)]

/-- `urllib.parse.quote(s)` with the default `safe='/'`. -/
def pyQuote (s : String) : String :=
  ⟨s.data.flatMap (fun c => (utf8Bytes c).flatMap quoteByte)⟩

/-- `Path.as_posix()` of a resolved absolute path. -/
def posixRender (p : FsPath) : String :=
  ⟨'/' :: List.intercalate ['/'] (p.map String.data)⟩

/-- `ProjectFilePacker._to_file_url`. -/
def _to_file_url (p : FsPath) : String :=
  "file://" ++ pyQuote (posixRender p)

/-- The resolved path points at a regular file (`Path.is_file`). -/
def FS.isRegularFile (fs : FS) (p : FsPath) : Prop :=
  match fs.lookup p with
  | some (.file _) => True
  | some (.zipf _) => True
  | _ => False

instance (fs : FS) (p : FsPath) : Decidable (fs.isRegularFile p) := by
  unfold FS.isRegularFile
  rcases fs.lookup p with _ | n
  · exact instDecidableFalse
  · cases n <;> simp <;> infer_instance

/-- `ProjectFilePacker.file2storage`: the path (already resolved in the
model) must exist and be a regular file; the result is the `file://`
URL of `StorageResult`. -/
def file2storage (fs : FS) (p : FsPath) : Except StorageErr String :=
  if fs.pathExists p ∧ fs.isRegularFile p then .ok (_to_file_url p)
  else .error .fileNotFound

/-! ## Lemmas about the filesystem operations -/

theorem lookup_setEntries (l : List (FsPath × Node)) (p q : FsPath) (n : Node) :
    lookupEntries (setEntries l p n) q =
      if q = p then some n else lookupEntries l q := by
  induction l with
  | nil =>
    by_cases h : q = p
    · simp [setEntries, lookupEntries, h]
    · have h2 : ¬ p = q := fun hp => h hp.symm
      simp [setEntries, lookupEntries, h, h2]
  | cons e rest ih =>
    by_cases h1 : e.1 = p
    · by_cases h2 : q = p
      · simp [setEntries, if_pos h1, lookupEntries, h2]
      · have h3 : ¬ p = q := fun hp => h2 hp.symm
        have h4 : ¬ e.1 = q := by rw [h1]; exact h3
        simp [setEntries, if_pos h1, lookupEntries, h2, h3, h4]
    · by_cases h2 : e.1 = q
      · have h3 : ¬ q = p := fun hq => h1 (h2.trans hq)
        simp [setEntries, if_neg h1, lookupEntries, h2, h3]
      · simp [setEntries, if_neg h1, lookupEntries, h2, ih]

theorem FS.lookup_setNode (fs : FS) (p q : FsPath) (n : Node) :
    (fs.setNode p n).lookup q = if q = p then some n else fs.lookup q := by
  simp [FS.setNode, FS.lookup, lookup_setEntries]

theorem setEntries_of_lookup_none (l : List (FsPath × Node)) (p : FsPath) (n : Node)
    (h : lookupEntries l p = none) : setEntries l p n = l ++ [(p, n)] := by
  induction l with
  | nil => simp [setEntries]
  | cons e rest ih =>
    simp only [lookupEntries] at h
    by_cases h1 : e.1 = p
    · simp [h1] at h
    · simp only [if_neg h1] at h
      simp [setEntries, h1, ih h]

theorem lookup_filter (l : List (FsPath × Node)) (pred : FsPath × Node → Prop)
    [DecidablePred pred] (q : FsPath)
    (h : ∀ e ∈ l, e.1 = q → pred e) :
    lookupEntries (l.filter (fun e => pred e)) q = lookupEntries l q := by
  induction l with
  | nil => simp
  | cons e rest ih =>
    rw [List.filter_cons]
    by_cases h2 : pred e
    · rw [if_pos (by simpa using h2)]
      by_cases h1 : e.1 = q
      · simp [lookupEntries, h1]
      · simp only [lookupEntries, if_neg h1]
        exact ih (fun a ha hq => h a (List.mem_cons_of_mem e ha) hq)
    · have h1 : ¬ e.1 = q := fun hq => h2 (h e (List.mem_cons_self e rest) hq)
      rw [if_neg (by simpa using h2)]
      simp only [lookupEntries, if_neg h1]
      exact ih (fun a ha hq => h a (List.mem_cons_of_mem e ha) hq)

theorem lookup_filter_none (l : List (FsPath × Node)) (pred : FsPath × Node → Prop)
    [DecidablePred pred] (q : FsPath)
    (h : ∀ n : Node, ¬ pred (q, n)) :
    lookupEntries (l.filter (fun e => pred e)) q = none := by
  induction l with
  | nil => simp [lookupEntries]
  | cons e rest ih =>
    rw [List.filter_cons]
    by_cases h2 : pred e
    · have h1 : ¬ e.1 = q := by
        intro hq
        refine h e.2 ?_
        have : (q, e.2) = e := by
          cases e with
          | mk a b => simp at hq ⊢; exact hq.symm
        rw [this]; exact h2
      rw [if_pos (by simpa using h2)]
      simp only [lookupEntries, if_neg h1]
      exact ih
    · rw [if_neg (by simpa using h2)]
      exact ih

/-- The paths affected by `mkdirGo fs done l`: strict extensions of
`done` that are prefixes of `done ++ l`. -/
def mkdirRange (done : FsPath) (l : List String) (q : FsPath) : Prop :=
  done <+: q ∧ q <+: done ++ l ∧ q ≠ done

instance (done : FsPath) (l : List String) (q : FsPath) :
    Decidable (mkdirRange done l q) := by
  unfold mkdirRange; exact instDecidableAnd

theorem mkdirGo_spec (l : List String) :
    ∀ (fs : FS) (done : FsPath),
    (∀ q, mkdirRange done l q → fs.lookup q = none ∨ fs.lookup q = some .dir) →
    ∃ fs2, mkdirGo fs done l = .ok fs2 ∧
      ∀ q, fs2.lookup q =
        if mkdirRange done l q then some .dir else fs.lookup q := by
  induction l with
  | nil =>
    intro fs done _
    refine ⟨fs, rfl, fun q => ?_⟩
    have : ¬ mkdirRange done [] q := by
      rintro ⟨h1, h2, h3⟩
      rw [List.append_nil] at h2
      exact h3 (h2.eq_of_length (Nat.le_antisymm h2.length_le h1.length_le))
    rw [if_neg this]
  | cons c rest ih =>
    intro fs done h
    have hq0r : mkdirRange done (c :: rest) (done ++ [c]) := by
      refine ⟨List.prefix_append done [c], ?_, ?_⟩
      · have : done ++ c :: rest = (done ++ [c]) ++ rest := by simp
        rw [this]
        exact List.prefix_append (done ++ [c]) rest
      · intro hq
        have := congrArg List.length hq
        simp at this
    have hsub : ∀ q, mkdirRange (done ++ [c]) rest q → mkdirRange done (c :: rest) q := by
      rintro q ⟨h1, h2, h3⟩
      refine ⟨(List.prefix_append done [c]).trans h1, ?_, ?_⟩
      · have : done ++ c :: rest = (done ++ [c]) ++ rest := by simp
        rw [this]; exact h2
      · intro hq
        subst hq
        have := h1.length_le
        simp at this
    have hsplit : ∀ q, mkdirRange done (c :: rest) q → q ≠ done ++ [c] →
        mkdirRange (done ++ [c]) rest q := by
      rintro q ⟨h1, h2, h3⟩ hne
      have hcomp : q <+: done ++ [c] ∨ done ++ [c] <+: q := by
        refine List.prefix_or_prefix_of_prefix h2 ?_
        have : done ++ c :: rest = (done ++ [c]) ++ rest := by simp
        rw [this]; exact List.prefix_append (done ++ [c]) rest
      rcases hcomp with hc | hc
      · exfalso
        have hlen1 : q.length ≤ done.length + 1 := by
          have := hc.length_le; simpa using this
        have hlen2 : done.length ≤ q.length := h1.length_le
        have hlen3 : done.length ≠ q.length := by
          intro he
          exact h3 (h1.eq_of_length he).symm
        have : q.length = done.length + 1 := by omega
        exact hne (hc.eq_of_length (by simpa using this))
      · refine ⟨hc, ?_, hne⟩
        have : done ++ c :: rest = (done ++ [c]) ++ rest := by simp
        rw [← this]; exact h2
    rcases h (done ++ [c]) hq0r with h0 | h0
    · -- the directory is missing and gets created
      have hstep : ∀ q, mkdirRange (done ++ [c]) rest q →
          (fs.setNode (done ++ [c]) .dir).lookup q = none ∨
          (fs.setNode (done ++ [c]) .dir).lookup q = some .dir := by
        intro q hq
        rw [FS.lookup_setNode, if_neg hq.2.2]
        exact h q (hsub q hq)
      rcases ih (fs.setNode (done ++ [c]) .dir) (done ++ [c]) hstep with ⟨fs2, hok, hchar⟩
      refine ⟨fs2, ?_, ?_⟩
      · simp only [mkdirGo, FS.lookup_setNode, h0]
        exact hok
      · intro q
        by_cases hr : mkdirRange done (c :: rest) q
        · rw [if_pos hr]
          by_cases hq0 : q = done ++ [c]
          · subst hq0
            rw [hchar, if_neg (fun hx => hx.2.2 rfl), FS.lookup_setNode, if_pos rfl]
          · rw [hchar, if_pos (hsplit q hr hq0)]
        · rw [if_neg hr, hchar, if_neg (fun hx => hr (hsub q hx)), FS.lookup_setNode,
            if_neg (fun hx => hr (by rw [hx]; exact hq0r))]
    · -- the directory already exists
      rcases ih fs (done ++ [c]) (fun q hq => h q (hsub q hq)) with ⟨fs2, hok, hchar⟩
      refine ⟨fs2, ?_, ?_⟩
      · simp only [mkdirGo, h0]
        exact hok
      · intro q
        by_cases hr : mkdirRange done (c :: rest) q
        · rw [if_pos hr]
          by_cases hq0 : q = done ++ [c]
          · subst hq0
            rw [hchar, if_neg (fun hx => hx.2.2 rfl)]
            exact h0
          · rw [hchar, if_pos (hsplit q hr hq0)]
        · rw [if_neg hr, hchar, if_neg (fun hx => hr (hsub q hx))]

theorem mkdirRange_head (done : FsPath) (c : String) (rest : List String) :
    mkdirRange done (c :: rest) (done ++ [c]) := by
  refine ⟨List.prefix_append done [c], ?_, ?_⟩
  · have : done ++ c :: rest = (done ++ [c]) ++ rest := by simp
    rw [this]
    exact List.prefix_append (done ++ [c]) rest
  · intro hq
    have := congrArg List.length hq
    simp at this

theorem mkdirRange_sub (done : FsPath) (c : String) (rest : List String) (q : FsPath) :
    mkdirRange (done ++ [c]) rest q → mkdirRange done (c :: rest) q := by
  rintro ⟨h1, h2, h3⟩
  refine ⟨(List.prefix_append done [c]).trans h1, ?_, ?_⟩
  · have : done ++ c :: rest = (done ++ [c]) ++ rest := by simp
    rw [this]; exact h2
  · intro hq
    subst hq
    have := h1.length_le
    simp at this

/-- A successful `mkdirGo` only appends entries, all of them directory
nodes inside the affected range at paths that were previously
absent. -/
theorem mkdirGo_append (l : List String) :
    ∀ (fs : FS) (done : FsPath) (fs2 : FS), mkdirGo fs done l = .ok fs2 →
    ∃ delta, fs2.entries = fs.entries ++ delta ∧
      ∀ e ∈ delta, mkdirRange done l e.1 ∧ e.2 = Node.dir ∧ fs.lookup e.1 = none := by
  induction l with
  | nil =>
    intro fs done fs2 hok
    refine ⟨[], ?_, by simp⟩
    simp only [mkdirGo] at hok
    cases hok
    simp
  | cons c rest ih =>
    intro fs done fs2 hok
    simp only [mkdirGo] at hok
    cases h0 : fs.lookup (done ++ [c]) with
    | none =>
      rw [h0] at hok
      rcases ih _ _ _ hok with ⟨delta, hent, hmem⟩
      refine ⟨(done ++ [c], Node.dir) :: delta, ?_, ?_⟩
      · rw [hent]
        have : (fs.setNode (done ++ [c]) Node.dir).entries
            = fs.entries ++ [(done ++ [c], Node.dir)] := by
          simp only [FS.setNode]
          exact setEntries_of_lookup_none fs.entries (done ++ [c]) Node.dir h0
        rw [this]
        simp
      · intro e hmem2
        rcases List.mem_cons.mp hmem2 with he | he
        · rw [he]
          exact ⟨mkdirRange_head done c rest, rfl, h0⟩
        · refine ⟨mkdirRange_sub done c rest e.1 (hmem e he).1, (hmem e he).2.1, ?_⟩
          have h3 := (hmem e he).2.2
          rw [FS.lookup_setNode] at h3
          by_cases he1 : e.1 = done ++ [c]
          · rw [if_pos he1] at h3; cases h3
          · rw [if_neg he1] at h3; exact h3
    | some n =>
      cases n with
      | dir =>
        rw [h0] at hok
        rcases ih _ _ _ hok with ⟨delta, hent, hmem⟩
        exact ⟨delta, hent, fun e he =>
          ⟨mkdirRange_sub done c rest e.1 (hmem e he).1, (hmem e he).2.1, (hmem e he).2.2⟩⟩
      | file content => rw [h0] at hok; cases hok
      | zipf es => rw [h0] at hok; cases hok

/-- `mkdir(parents=True, exist_ok=True)` succeeds when no prefix of the
path is occupied by a non-directory, and afterwards every nonempty
prefix of the path is a directory; nothing else changes. -/
theorem FS.mkdirP_spec (fs : FS) (p : FsPath)
    (h : ∀ q, q <+: p → q ≠ [] → fs.lookup q = none ∨ fs.lookup q = some .dir) :
    ∃ fs2, fs.mkdirP p = .ok fs2 ∧
      ∀ q, fs2.lookup q = if q <+: p ∧ q ≠ [] then some .dir else fs.lookup q := by
  have hr : ∀ q, mkdirRange [] p q ↔ (q <+: p ∧ q ≠ []) := by
    intro q
    constructor
    · rintro ⟨_, h2, h3⟩; exact ⟨by simpa using h2, h3⟩
    · rintro ⟨h2, h3⟩; exact ⟨List.nil_prefix, by simpa using h2, h3⟩
  rcases mkdirGo_spec p fs [] (fun q hq => h q (by simpa using hq.2.1) hq.2.2)
    with ⟨fs2, hok, hchar⟩
  refine ⟨fs2, hok, fun q => ?_⟩
  by_cases hq : q <+: p ∧ q ≠ []
  · rw [if_pos hq, hchar, if_pos ((hr q).mpr hq)]
  · rw [if_neg hq, hchar, if_neg (fun hx => hq ((hr q).mp hx))]

theorem FS.rmtree_spec (fs : FS) (p : FsPath) (h : fs.lookup p = some .dir) :
    ∃ fs2, fs.rmtree p = .ok fs2 ∧
      (∀ q, fs2.lookup q = if p <+: q then none else fs.lookup q) ∧
      fs2.entries = fs.entries.filter (fun e => ¬ p <+: e.1) := by
  refine ⟨⟨fs.entries.filter (fun e => ¬ p <+: e.1)⟩, by simp [FS.rmtree, h],
    fun q => ?_, rfl⟩
  by_cases hq : p <+: q
  · rw [if_pos hq]
    exact lookup_filter_none fs.entries (fun e => ¬ p <+: e.1) q
      (fun n => not_not_intro hq)
  · rw [if_neg hq]
    exact lookup_filter fs.entries (fun e => ¬ p <+: e.1) q
      (fun e _ he => by show ¬ p <+: e.1; rw [he]; exact hq)

theorem FS.unlink_spec (fs : FS) (p : FsPath) (n : Node) (h : fs.lookup p = some n)
    (hn : n ≠ .dir) :
    ∃ fs2, fs.unlink p = .ok fs2 ∧
      (∀ q, fs2.lookup q = if q = p then none else fs.lookup q) ∧
      fs2.entries = fs.entries.filter (fun e => e.1 ≠ p) := by
  have hstep : fs.unlink p = .ok ⟨fs.entries.filter (fun e => e.1 ≠ p)⟩ := by
    cases n with
    | dir => exact absurd rfl hn
    | file c => simp [FS.unlink, h]
    | zipf es => simp [FS.unlink, h]
  refine ⟨⟨fs.entries.filter (fun e => e.1 ≠ p)⟩, hstep, fun q => ?_, rfl⟩
  by_cases hq : q = p
  · rw [if_pos hq]
    exact lookup_filter_none fs.entries (fun e => e.1 ≠ p) q
      (fun n => not_not_intro hq)
  · rw [if_neg hq]
    exact lookup_filter fs.entries (fun e => e.1 ≠ p) q
      (fun e _ he => by show e.1 ≠ p; rw [he]; exact hq)

/-- Characterisation of the best-effort cleanup when the target is an
existing directory. -/
theorem safe_remove_dir_of_dir (fs : FS) (p : FsPath) (h : fs.lookup p = some .dir) :
    ∀ q, (_safe_remove_dir fs p).lookup q = if p <+: q then none else fs.lookup q := by
  intro q
  rcases fs.rmtree_spec p h with ⟨fs2, hok, hchar, _⟩
  have hex : fs.pathExists p := Or.inr (by simp [h])
  simp only [_safe_remove_dir, if_pos hex, hok]
  exact hchar q

/-- The cleanup is the identity when the target does not exist. -/
theorem safe_remove_dir_of_absent (fs : FS) (p : FsPath) (hp : p ≠ [])
    (h : fs.lookup p = none) : _safe_remove_dir fs p = fs := by
  have hex : ¬ fs.pathExists p := by
    rintro (he | he)
    · exact hp he
    · rw [h] at he; simp at he
  simp [_safe_remove_dir, if_neg hex]

/-- The cleanup swallows the `NotADirectoryError` of removing a
non-directory and leaves the state unchanged. -/
theorem lookupEntries_ne_none_of_mem (l : List (FsPath × Node)) (e : FsPath × Node)
    (h : e ∈ l) : lookupEntries l e.1 ≠ none := by
  induction l with
  | nil => cases h
  | cons a rest ih =>
    by_cases h1 : a.1 = e.1
    · simp [lookupEntries, h1]
    · simp only [lookupEntries, if_neg h1]
      rcases List.mem_cons.mp h with he | he
      · exact absurd (congrArg Prod.fst he.symm) h1
      · exact ih he

theorem safe_remove_dir_of_nondir (fs : FS) (p : FsPath) (n : Node)
    (h : fs.lookup p = some n) (hn : n ≠ .dir) : _safe_remove_dir fs p = fs := by
  have hex : fs.pathExists p := Or.inr (by simp [h])
  have hrm : fs.rmtree p = .error .notADirectory := by
    cases n with
    | dir => exact absurd rfl hn
    | file c => simp [FS.rmtree, h]
    | zipf es => simp [FS.rmtree, h]
  simp [_safe_remove_dir, if_pos hex, hrm]

/-! ## Valid relative keys -/

/-- A clean relative key: every raw `'/'`-separated segment is nonempty
and is neither `"."` nor `".."`.  This is the FileMap key invariant of
the spec (relative, no traversal, no empty or dot segments, already in
normal form). -/
def ValidKey (k : String) : Prop :=
  ∀ seg ∈ rawSegs k, seg ≠ [] ∧ seg ≠ ['.'] ∧ seg ≠ ['.', '.']

instance (k : String) : Decidable (ValidKey k) := by
  unfold ValidKey; infer_instance

theorem splitOnChar_cons_sep (sep : Char) (l : List Char) :
    splitOnChar sep (sep :: l) = [] :: splitOnChar sep l := by
  simp only [splitOnChar]
  cases h : splitOnChar sep l with
  | nil => exact absurd h (splitOnChar_ne_nil sep l)
  | cons s ss => simp

theorem pathParts_of_validKey (k : String) (h : ValidKey k) :
    pathParts k = (rawSegs k).map (fun l => (⟨l⟩ : String)) := by
  unfold pathParts
  congr 1
  refine List.filter_eq_self.mpr (fun seg hseg => ?_)
  have := h seg hseg
  simp [this.1, this.2.1]

theorem validKey_not_absolute (k : String) (h : ValidKey k) :
    isAbsolutePath k = false := by
  unfold isAbsolutePath
  cases hd : k.data with
  | nil => rfl
  | cons c rest =>
    by_cases hc : c = '/'
    · exfalso
      subst hc
      have hmem : [] ∈ rawSegs k := by
        unfold rawSegs
        rw [hd, splitOnChar_cons_sep]
        exact List.mem_cons_self [] _
      exact (h [] hmem).1 rfl
    · simp [hc]

theorem pathParts_ne_nil_of_validKey (k : String) (h : ValidKey k) :
    pathParts k ≠ [] := by
  rw [pathParts_of_validKey k h]
  intro hc
  exact splitOnChar_ne_nil '/' k.data (by simpa [rawSegs] using hc)

/-- A valid key passes `_sanitize_relpath` and comes back as its raw
segments. -/
theorem sanitize_of_validKey (k : String) (h : ValidKey k) :
    _sanitize_relpath k = .ok (pathParts k) := by
  unfold _sanitize_relpath
  rw [validKey_not_absolute k h]
  have hany : (pathParts k).any (fun part => part == ".." || part == "") = false := by
    refine List.any_eq_false.mpr (fun part hpart => ?_)
    rw [pathParts_of_validKey k h] at hpart
    rcases List.mem_map.mp hpart with ⟨seg, hseg, hmk⟩
    have hv := h seg hseg
    subst hmk
    have h1 : (⟨seg⟩ : String) ≠ ".." := by
      intro he
      exact hv.2.2 (by simpa using congrArg String.data he)
    have h2 : (⟨seg⟩ : String) ≠ "" := by
      intro he
      exact hv.1 (by simpa using congrArg String.data he)
    simp [h1, h2]
  simp [hany]

theorem intercalate_cons_of_ne_nil {α : Type} (s a : List α) (ss : List (List α))
    (h : ss ≠ []) :
    List.intercalate s (a :: ss) = a ++ s ++ List.intercalate s ss := by
  cases ss with
  | nil => exact absurd rfl h
  | cons b t => simp [List.intercalate, List.intersperse]

/-- Rendering the staged path of a valid key relative to the parent of
the staging directory gives exactly `proj ++ "/" ++ key`. -/
theorem joinSlash_cons_validKey (proj k : String) (h : ValidKey k) :
    joinSlash (proj :: pathParts k) = proj ++ "/" ++ k := by
  rw [pathParts_of_validKey k h]
  apply String.ext
  show List.intercalate ['/']
      ((proj :: (rawSegs k).map (fun l => (⟨l⟩ : String))).map String.data)
      = (proj ++ "/" ++ k).data
  have hmapmap : ((rawSegs k).map (fun l => (⟨l⟩ : String))).map String.data = rawSegs k := by
    rw [List.map_map]
    exact List.map_id _
  rw [List.map_cons, hmapmap,
    intercalate_cons_of_ne_nil ['/'] proj.data (rawSegs k) (splitOnChar_ne_nil '/' k.data)]
  show proj.data ++ ['/'] ++ List.intercalate ['/'] (splitOnChar '/' k.data) = _
  rw [intercalate_splitOnChar '/' k.data]
  simp [String.data_append]

/-- On valid keys the parts determine the key. -/
theorem validKey_parts_inj (k1 k2 : String) (h1 : ValidKey k1) (h2 : ValidKey k2)
    (he : pathParts k1 = pathParts k2) : k1 = k2 := by
  rw [pathParts_of_validKey k1 h1, pathParts_of_validKey k2 h2] at he
  have hsegs : rawSegs k1 = rawSegs k2 := by
    have : ∀ (l1 l2 : List (List Char)),
        l1.map (fun l => (⟨l⟩ : String)) = l2.map (fun l => (⟨l⟩ : String)) → l1 = l2 := by
      intro l1
      induction l1 with
      | nil => intro l2 hm; cases l2 <;> simp_all
      | cons a t ih =>
        intro l2 hm
        cases l2 with
        | nil => simp_all
        | cons b t2 =>
          simp only [List.map_cons, List.cons.injEq] at hm
          have hab : a = b := congrArg String.data hm.1
          rw [hab, ih t2 hm.2]
    exact this _ _ he
  apply String.ext
  rw [← intercalate_splitOnChar '/' k1.data, ← intercalate_splitOnChar '/' k2.data]
  show List.intercalate ['/'] (rawSegs k1) = List.intercalate ['/'] (rawSegs k2)
  rw [hsegs]

/-- Project a filesystem entry to a text-file record. -/
def fileProj (e : FsPath × Node) : Option (FsPath × String) :=
  match e.2 with
  | .file c => some (e.1, c)
  | _ => none

theorem lookupEntries_append (l1 l2 : List (FsPath × Node)) (q : FsPath) :
    lookupEntries (l1 ++ l2) q =
      match lookupEntries l1 q with
      | some n => some n
      | none => lookupEntries l2 q := by
  induction l1 with
  | nil => simp [lookupEntries]
  | cons e rest ih =>
    by_cases h : e.1 = q
    · simp [lookupEntries, h]
    · simp only [List.cons_append, lookupEntries, if_neg h]
      exact ih

theorem lookupEntries_none (l : List (FsPath × Node)) (q : FsPath)
    (h : ∀ e ∈ l, e.1 ≠ q) : lookupEntries l q = none := by
  induction l with
  | nil => rfl
  | cons e rest ih =>
    simp only [lookupEntries, if_neg (h e (List.mem_cons_self e rest))]
    exact ih (fun a ha => h a (List.mem_cons_of_mem e ha))

theorem FS.lookup_append (fs : FS) (delta : List (FsPath × Node)) (q : FsPath) :
    (FS.mk (fs.entries ++ delta)).lookup q =
      match fs.lookup q with
      | some n => some n
      | none => lookupEntries delta q :=
  lookupEntries_append fs.entries delta q

/-- One successful write of a valid key: the state grows by a block of
new entries, all strictly below the staging root and along the target
path, whose only text file is the target itself. -/
theorem writeOne_spec (fs : FS) (tmp : FsPath) (k v : String)
    (hk : ValidKey k)
    (htmp : ∀ q, q <+: tmp → fs.isDirAt q)
    (hchain : ∀ q, tmp <+: q → q <+: tmp ++ pathParts k → q ≠ tmp ++ pathParts k →
      fs.lookup q = none ∨ fs.lookup q = some .dir)
    (hfresh : fs.lookup (tmp ++ pathParts k) = none) :
    ∃ delta, writeOne fs tmp k v = (⟨fs.entries ++ delta⟩, .ok ()) ∧
      (∀ e ∈ delta, tmp <+: e.1 ∧ e.1 ≠ tmp ∧ e.1 <+: tmp ++ pathParts k ∧
        (e.2 = Node.dir ∨ (e.1 = tmp ++ pathParts k ∧ e.2 = Node.file v))) ∧
      delta.filterMap fileProj = [(tmp ++ pathParts k, v)] := by
  have hparts : pathParts k ≠ [] := pathParts_ne_nil_of_validKey k hk
  set target := tmp ++ pathParts k with htarget
  have htne : target ≠ tmp := by
    intro he
    have := congrArg List.length he
    simp only [htarget, List.length_append] at this
    have : (pathParts k).length = 0 := by omega
    exact hparts (List.length_eq_zero.mp this)
  have htpre : tmp <+: target := List.prefix_append tmp (pathParts k)
  have hdl : target.dropLast = tmp ++ (pathParts k).dropLast := by
    rw [htarget]
    exact List.dropLast_append_of_ne_nil tmp hparts
  have hdlpre : tmp <+: target.dropLast := by
    rw [hdl]; exact List.prefix_append tmp (pathParts k).dropLast
  have hdllt : target.dropLast.length < target.length := by
    have h1 : target ≠ [] := by
      intro he
      rw [htarget] at he
      rcases List.append_eq_nil.mp he with ⟨_, h2⟩
      exact hparts h2
    rw [List.length_dropLast]
    have : 0 < target.length := List.length_pos.mpr h1
    omega
  -- the mkdir of the parent chain
  have hmk : ∀ q, q <+: target.dropLast → q ≠ [] →
      fs.lookup q = none ∨ fs.lookup q = some .dir := by
    intro q hq hqne
    rcases List.prefix_or_prefix_of_prefix hq hdlpre with hc | hc
    · rcases htmp q hc with h1 | h1
      · exact absurd h1 hqne
      · exact Or.inr h1
    · refine hchain q hc (hq.trans (List.dropLast_prefix target)) ?_
      intro he
      have := hq.length_le
      rw [he] at this
      omega
  rcases fs.mkdirP_spec target.dropLast hmk with ⟨fs1, hok1, hchar1⟩
  rcases mkdirGo_append target.dropLast fs [] fs1 hok1 with ⟨delta1, hent1, hmem1⟩
  have hlt : fs1.lookup target = none := by
    rw [hchar1]
    rw [if_neg]
    · exact hfresh
    · rintro ⟨hp, _⟩
      have := hp.length_le
      omega
  have hpdir : fs1.isDirAt target.dropLast := by
    by_cases hnil : target.dropLast = []
    · exact Or.inl hnil
    · refine Or.inr ?_
      rw [hchar1, if_pos ⟨List.prefix_rfl, hnil⟩]
  have hwt : fs1.writeText target v = .ok (fs1.setNode target (.file v)) := by
    unfold FS.writeText
    rw [if_neg (fun he => htne (by rw [he] at htpre ⊢; exact (List.prefix_nil.mp htpre).symm ▸ rfl))]
    rw [hlt]
    simp [if_pos hpdir]
  have hset : (fs1.setNode target (.file v)).entries = fs1.entries ++ [(target, .file v)] := by
    simp only [FS.setNode]
    exact setEntries_of_lookup_none fs1.entries target (.file v) hlt
  refine ⟨delta1 ++ [(target, .file v)], ?_, ?_, ?_⟩
  · -- computation of writeOne
    unfold writeOne
    rw [sanitize_of_validKey k hk]
    simp only []
    rw [if_neg (by
      rintro ⟨hns, _⟩
      exact hns ⟨htpre, htne⟩)]
    rw [show fs.mkdirP (tmp ++ pathParts k).dropLast = .ok fs1 from hok1]
    simp only []
    rw [show fs1.writeText (tmp ++ pathParts k) v = .ok (fs1.setNode target (.file v)) from hwt]
    have h2 : fs1.setNode target (.file v)
        = (⟨fs.entries ++ (delta1 ++ [(target, .file v)])⟩ : FS) :=
      congrArg FS.mk (by
        rw [show setEntries fs1.entries target (Node.file v)
            = fs1.entries ++ [(target, Node.file v)] from
          setEntries_of_lookup_none fs1.entries target (.file v) hlt,
          hent1, List.append_assoc])
    rw [h2]
  · intro e he
    rcases List.mem_append.mp he with he | he
    · rcases hmem1 e he with ⟨⟨_, hr2, hr3⟩, hdir, hnone⟩
      have hr2' : e.1 <+: target.dropLast := by simpa using hr2
      have hcomp : e.1 <+: tmp ∨ tmp <+: e.1 :=
        List.prefix_or_prefix_of_prefix hr2' hdlpre
      have hunder : tmp <+: e.1 ∧ e.1 ≠ tmp := by
        rcases hcomp with hc | hc
        · exfalso
          rcases htmp e.1 hc with h1 | h1
          · exact hr3 h1
          · rw [h1] at hnone; cases hnone
        · refine ⟨hc, ?_⟩
          intro he1
          rcases htmp tmp List.prefix_rfl with h1 | h1
          · rw [← he1] at h1; exact hr3 h1
          · rw [← he1, hnone] at h1; cases h1
      exact ⟨hunder.1, hunder.2, hr2'.trans (List.dropLast_prefix target), Or.inl hdir⟩
    · rcases List.mem_singleton.mp he with rfl
      exact ⟨htpre, htne, List.prefix_rfl, Or.inr ⟨rfl, rfl⟩⟩
  · rw [List.filterMap_append]
    have h1 : delta1.filterMap fileProj = [] := by
      refine List.filterMap_eq_nil_iff.mpr (fun e he => ?_)
      rw [fileProj, (hmem1 e he).2.1]
    rw [h1]
    simp [fileProj]

theorem lookupEntries_some_mem (l : List (FsPath × Node)) (q : FsPath) (n : Node)
    (h : lookupEntries l q = some n) : (q, n) ∈ l := by
  induction l with
  | nil => cases h
  | cons e rest ih =>
    by_cases h1 : e.1 = q
    · simp only [lookupEntries, if_pos h1] at h
      cases h
      cases e with
      | mk a b =>
        simp only at h1
        subst h1
        simp
    · simp only [lookupEntries, if_neg h1] at h
      exact List.mem_cons_of_mem e (ih h)

/-- The whole `_write_files` loop on a staged-fresh state: appends a
block of entries strictly below the staging root whose text files are
exactly the staged targets of the map, in map order. -/
theorem write_files_spec (m : List (String × String)) :
    ∀ (fs : FS) (tmp : FsPath),
    (∀ q, q <+: tmp → fs.isDirAt q) →
    (∀ kv ∈ m, ValidKey kv.1) →
    List.Pairwise (fun a b => ¬ pathParts a.1 <+: pathParts b.1 ∧
      ¬ pathParts b.1 <+: pathParts a.1) m →
    (∀ kv ∈ m, fs.lookup (tmp ++ pathParts kv.1) = none ∧
      ∀ q, tmp <+: q → q <+: tmp ++ pathParts kv.1 → q ≠ tmp ++ pathParts kv.1 →
        fs.lookup q = none ∨ fs.lookup q = some .dir) →
    ∃ delta, _write_files fs tmp m = (⟨fs.entries ++ delta⟩, .ok ()) ∧
      (∀ e ∈ delta, tmp <+: e.1 ∧ e.1 ≠ tmp) ∧
      delta.filterMap fileProj = m.map (fun kv => (tmp ++ pathParts kv.1, kv.2)) := by
  induction m with
  | nil =>
    intro fs tmp _ _ _ _
    exact ⟨[], by simp [_write_files], by simp, by simp⟩
  | cons kv rest ih =>
    intro fs tmp htmp hvk hpw hst
    obtain ⟨k, v⟩ := kv
    have hhead : ∀ b ∈ rest, ¬ pathParts k <+: pathParts b.1 ∧
        ¬ pathParts b.1 <+: pathParts k := (List.pairwise_cons.mp hpw).1
    have hptail := (List.pairwise_cons.mp hpw).2
    rcases writeOne_spec fs tmp k v (hvk (k, v) (List.mem_cons_self _ _))
      (htmp) (fun q h1 h2 h3 => (hst (k, v) (List.mem_cons_self _ _)).2 q h1 h2 h3)
      ((hst (k, v) (List.mem_cons_self _ _)).1) with ⟨delta1, heq1, hmem1, hfile1⟩
    set fs2 : FS := ⟨fs.entries ++ delta1⟩ with hfs2
    have htmp2 : ∀ q, q <+: tmp → fs2.isDirAt q := by
      intro q hq
      rcases htmp q hq with h1 | h1
      · exact Or.inl h1
      · refine Or.inr ?_
        rw [hfs2, FS.lookup_append, h1]
    have hst2 : ∀ kv2 ∈ rest, fs2.lookup (tmp ++ pathParts kv2.1) = none ∧
        ∀ q, tmp <+: q → q <+: tmp ++ pathParts kv2.1 → q ≠ tmp ++ pathParts kv2.1 →
          fs2.lookup q = none ∨ fs2.lookup q = some .dir := by
      intro kv2 hkv2
      constructor
      · rw [hfs2, FS.lookup_append, (hst kv2 (List.mem_cons_of_mem _ hkv2)).1]
        refine lookupEntries_none delta1 _ (fun e he => ?_)
        intro heq
        rcases hmem1 e he with ⟨_, _, hpre, _⟩
        rw [heq] at hpre
        exact (hhead kv2 hkv2).2 ((List.prefix_append_right_inj tmp).mp hpre)
      · intro q h1 h2 h3
        rw [hfs2, FS.lookup_append]
        rcases hq : fs.lookup q with _ | n
        · simp only []
          rcases hd : lookupEntries delta1 q with _ | n2
          · exact Or.inl rfl
          · have hmm := lookupEntries_some_mem delta1 q n2 hd
            rcases hmem1 (q, n2) hmm with ⟨_, _, hpre, hnode | hnode⟩
            · simp only at hnode
              exact Or.inr (by rw [hnode])
            · exfalso
              simp only at hnode
              have : tmp ++ pathParts k <+: tmp ++ pathParts kv2.1 := by
                rw [← hnode.1]; exact h2
              exact (hhead kv2 hkv2).1 ((List.prefix_append_right_inj tmp).mp this)
        · rcases (hst kv2 (List.mem_cons_of_mem _ hkv2)).2 q h1 h2 h3 with h4 | h4
          · rw [hq] at h4; cases h4
          · rw [hq] at h4
            exact Or.inr (by simp only []; exact h4)
    rcases ih fs2 tmp htmp2 (fun a ha => hvk a (List.mem_cons_of_mem _ ha)) hptail hst2
      with ⟨delta2, heq2, hmem2, hfile2⟩
    refine ⟨delta1 ++ delta2, ?_, ?_, ?_⟩
    · show _write_files fs tmp ((k, v) :: rest) = _
      simp only [_write_files]
      rw [heq1]
      simp only []
      rw [heq2]
      have : fs2.entries ++ delta2 = fs.entries ++ (delta1 ++ delta2) := by
        rw [hfs2, List.append_assoc]
      rw [this]
    · intro e he
      rcases List.mem_append.mp he with he | he
      · rcases hmem1 e he with ⟨h1, h2, _, _⟩
        exact ⟨h1, h2⟩
      · exact hmem2 e he
    · rw [List.filterMap_append, hfile1, hfile2]
      simp

theorem filterMap_filter_eq {α β : Type} (f : α → Option β) (p : α → Prop)
    [DecidablePred p] (l : List α) (h : ∀ a ∈ l, ¬ p a → f a = none) :
    (l.filter (fun a => p a)).filterMap f = l.filterMap f := by
  induction l with
  | nil => simp
  | cons a rest ih =>
    rw [List.filter_cons]
    by_cases hp : p a
    · rw [if_pos (by simpa using hp)]
      simp only [List.filterMap_cons]
      rw [ih (fun b hb => h b (List.mem_cons_of_mem a hb))]
    · rw [if_neg (by simpa using hp)]
      simp only [List.filterMap_cons]
      rw [h a (List.mem_cons_self a rest) hp]
      exact ih (fun b hb => h b (List.mem_cons_of_mem a hb))

/-- `_recreate_dir` on a well-placed staging path: afterwards the path
is a fresh empty directory, everything below it is gone, everything
else is untouched, and no entry at all remains strictly below it. -/
theorem recreate_dir_spec (fs : FS) (tmp : FsPath) (htne : tmp ≠ [])
    (hchain : ∀ q, q <+: tmp → q ≠ tmp → fs.isDirAt q)
    (htmp : fs.lookup tmp = some .dir ∨
      (fs.lookup tmp = none ∧ ∀ q, tmp <+: q → q ≠ tmp → fs.lookup q = none)) :
    ∃ fs2, _recreate_dir fs tmp = (fs2, .ok ()) ∧
      (∀ q, fs2.lookup q = if q = tmp then some .dir
        else if tmp <+: q then none else fs.lookup q) ∧
      (∀ e ∈ fs2.entries, ¬ (tmp <+: e.1 ∧ e.1 ≠ tmp)) := by
  have hanti : ∀ q : FsPath, q <+: tmp → tmp <+: q → q = tmp := by
    intro q h1 h2
    exact h1.eq_of_length (Nat.le_antisymm h1.length_le h2.length_le)
  rcases htmp with hdir | ⟨hnone, hunder⟩
  · -- the staging directory exists: it is removed and recreated
    rcases fs.rmtree_spec tmp hdir with ⟨fs1, hrm, hchar1, hent1⟩
    have hex : fs.pathExists tmp := Or.inr (by simp [hdir])
    have hmk : ∀ q, q <+: tmp → q ≠ [] →
        fs1.lookup q = none ∨ fs1.lookup q = some .dir := by
      intro q hq hqne
      by_cases hqt : q = tmp
      · subst hqt
        rw [hchar1, if_pos List.prefix_rfl]
        exact Or.inl rfl
      · rw [hchar1, if_neg (fun hx => hqt (hanti q hq hx))]
        rcases hchain q hq hqt with h1 | h1
        · exact absurd h1 hqne
        · exact Or.inr h1
    rcases fs1.mkdirP_spec tmp hmk with ⟨fs2, hok2, hchar2⟩
    rcases mkdirGo_append tmp fs1 [] fs2 hok2 with ⟨delta, hent, hmem⟩
    refine ⟨fs2, ?_, ?_, ?_⟩
    · simp only [_recreate_dir, if_pos hex, hrm, _ensure_dir, hok2]
    · intro q
      by_cases hq : q = tmp
      · subst hq
        rw [if_pos rfl, hchar2, if_pos ⟨List.prefix_rfl, htne⟩]
      · rw [if_neg hq]
        by_cases hu : tmp <+: q
        · rw [if_pos hu, hchar2, if_neg (fun hx => hq (hanti q hx.1 hu)), hchar1,
            if_pos hu]
        · rw [if_neg hu, hchar2]
          by_cases hp : q <+: tmp ∧ q ≠ []
          · rw [if_pos hp]
            rcases hchain q hp.1 hq with h1 | h1
            · exact absurd h1 hp.2
            · rw [h1]
          · rw [if_neg hp, hchar1, if_neg hu]
    · intro e he
      rw [hent] at he
      rcases List.mem_append.mp he with he | he
      · rw [hent1] at he
        have : ¬ tmp <+: e.1 := by
          have := List.mem_filter.mp he
          simpa using this.2
        rintro ⟨h1, _⟩
        exact this h1
      · rcases hmem e he with ⟨⟨_, h2, _⟩, _, _⟩
        rintro ⟨h1, h3⟩
        exact h3 (hanti e.1 (by simpa using h2) h1)
  · -- the staging directory does not exist yet
    have hex : ¬ fs.pathExists tmp := by
      rintro (he | he)
      · exact htne he
      · rw [hnone] at he; simp at he
    have hmk : ∀ q, q <+: tmp → q ≠ [] →
        fs.lookup q = none ∨ fs.lookup q = some .dir := by
      intro q hq hqne
      by_cases hqt : q = tmp
      · subst hqt; exact Or.inl hnone
      · rcases hchain q hq hqt with h1 | h1
        · exact absurd h1 hqne
        · exact Or.inr h1
    rcases fs.mkdirP_spec tmp hmk with ⟨fs2, hok2, hchar2⟩
    rcases mkdirGo_append tmp fs [] fs2 hok2 with ⟨delta, hent, hmem⟩
    refine ⟨fs2, ?_, ?_, ?_⟩
    · simp only [_recreate_dir, if_neg hex, _ensure_dir, hok2]
    · intro q
      by_cases hq : q = tmp
      · subst hq
        rw [if_pos rfl, hchar2, if_pos ⟨List.prefix_rfl, htne⟩]
      · rw [if_neg hq]
        by_cases hu : tmp <+: q
        · rw [if_pos hu, hchar2, if_neg (fun hx => hq (hanti q hx.1 hu))]
          exact hunder q hu hq
        · rw [if_neg hu, hchar2]
          by_cases hp : q <+: tmp ∧ q ≠ []
          · rw [if_pos hp]
            rcases hchain q hp.1 hq with h1 | h1
            · exact absurd h1 hp.2
            · rw [h1]
          · rw [if_neg hp]
    · intro e he
      rw [hent] at he
      rcases List.mem_append.mp he with he | he
      · rintro ⟨h1, h3⟩
        exact lookupEntries_ne_none_of_mem fs.entries e he (hunder e.1 h1 h3)
      · rcases hmem e he with ⟨⟨_, h2, _⟩, _, _⟩
        rintro ⟨h1, h3⟩
        exact h3 (hanti e.1 (by simpa using h2) h1)

/-- `_make_zip` on a state whose archive target is not a directory and
whose output directory exists: the old archive (if any) is replaced by
a fresh archive holding every staged file under its path relative to
the parent of the staging directory; nothing else changes. -/
theorem make_zip_spec (fs : FS) (src out : FsPath) (zname : String)
    (hnotdir : fs.lookup (out ++ [zname]) ≠ some .dir)
    (hparent : fs.isDirAt out)
    (hnosrc : ¬ src <+: out ++ [zname]) :
    ∃ fs2, _make_zip fs src out zname = (fs2, .ok (out ++ [zname])) ∧
      ∀ q, fs2.lookup q = if q = out ++ [zname]
        then some (.zipf ((fs.filesUnder src).map
          (fun pr => (joinSlash (pr.1.drop src.dropLast.length), pr.2))))
        else fs.lookup q := by
  set zipP := out ++ [zname] with hzdef
  have hzne : zipP ≠ [] := by simp [hzdef]
  have hzdl : zipP.dropLast = out := List.dropLast_concat
  have houtne : out ≠ zipP := by
    intro he
    have := congrArg List.length he
    simp [hzdef] at this
  -- the state after the optional unlink, with unchanged staged files
  have hmain : ∀ (fs1 : FS),
      fs1.lookup zipP = none →
      fs1.isDirAt out →
      fs1.filesUnder src = fs.filesUnder src →
      (∀ q, q ≠ zipP → fs1.lookup q = fs.lookup q) →
      fs1.writeZip zipP ((fs1.filesUnder src).map
          (fun pr => (joinSlash (pr.1.drop src.dropLast.length), pr.2)))
        = .ok (fs1.setNode zipP (.zipf ((fs.filesUnder src).map
          (fun pr => (joinSlash (pr.1.drop src.dropLast.length), pr.2))))) := by
    intro fs1 hz hdir hfu _
    unfold FS.writeZip
    rw [if_neg hzne, hz]
    simp only []
    rw [hzdl, if_pos hdir, hfu]
  rcases hlz : fs.lookup zipP with _ | n
  · -- no archive at the target yet
    have hex : ¬ fs.pathExists zipP := by
      rintro (he | he)
      · exact hzne he
      · rw [hlz] at he; simp at he
    have hwz := hmain fs hlz hparent rfl (fun q _ => rfl)
    refine ⟨fs.setNode zipP (.zipf ((fs.filesUnder src).map
      (fun pr => (joinSlash (pr.1.drop src.dropLast.length), pr.2)))), ?_, ?_⟩
    · simp only [_make_zip, if_neg hex]
      rw [hwz]
    · intro q
      rw [FS.lookup_setNode]
  · -- an archive (or stray regular file) is there: it is unlinked first
    have hnd : n ≠ .dir := by
      intro he
      rw [he] at hlz
      exact hnotdir hlz
    have hex : fs.pathExists zipP := Or.inr (by simp [hlz])
    rcases fs.unlink_spec zipP n hlz hnd with ⟨fs1, hul, hchar1, hent1⟩
    have hz1 : fs1.lookup zipP = none := by rw [hchar1, if_pos rfl]
    have hdir1 : fs1.isDirAt out := by
      rcases hparent with h1 | h1
      · exact Or.inl h1
      · exact Or.inr (by rw [hchar1, if_neg houtne]; exact h1)
    have hfu1 : fs1.filesUnder src = fs.filesUnder src := by
      unfold FS.filesUnder
      rw [hent1]
      refine filterMap_filter_eq _ (fun e => e.1 ≠ zipP) fs.entries (fun e _ hne => ?_)
      have he1 : e.1 = zipP := not_not.mp hne
      cases hn2 : e.2 with
      | file c =>
        simp only [hn2]
        rw [if_neg]
        rintro ⟨hp, _⟩
        rw [he1] at hp
        exact hnosrc hp
      | dir => simp [hn2]
      | zipf es => simp [hn2]
    have hwz := hmain fs1 hz1 hdir1 hfu1 (fun q hq => by rw [hchar1, if_neg hq])
    refine ⟨fs1.setNode zipP (.zipf ((fs.filesUnder src).map
      (fun pr => (joinSlash (pr.1.drop src.dropLast.length), pr.2)))), ?_, ?_⟩
    · simp only [_make_zip, if_pos hex]
      rw [hul]
      simp only []
      rw [hwz]
    · intro q
      rw [FS.lookup_setNode]
      by_cases hq : q = zipP
      · rw [if_pos hq, if_pos hq]
      · rw [if_neg hq, if_neg hq, hchar1, if_neg hq]

/-- A dict whose keys and values are all `str` passes the check
unchanged. -/
theorem ensure_str_str_map (m : List (String × String)) :
    _ensure_str_str_dict (m.map (fun kv => (.str kv.1, .str kv.2))) = .ok m := by
  induction m with
  | nil => rfl
  | cons kv rest ih =>
    obtain ⟨k, v⟩ := kv
    simp only [List.map_cons, _ensure_str_str_dict, ih]

theorem filesUnder_append (l1 l2 : List (FsPath × Node)) (src : FsPath) :
    (FS.mk (l1 ++ l2)).filesUnder src
      = (FS.mk l1).filesUnder src ++ (FS.mk l2).filesUnder src := by
  unfold FS.filesUnder
  exact List.filterMap_append l1 l2 _

theorem filesUnder_eq_nil_of_clean (l : List (FsPath × Node)) (src : FsPath)
    (h : ∀ e ∈ l, ¬ (src <+: e.1 ∧ e.1 ≠ src)) :
    (FS.mk l).filesUnder src = [] := by
  unfold FS.filesUnder
  refine List.filterMap_eq_nil_iff.mpr (fun e he => ?_)
  cases hn : e.2 with
  | file c =>
    simp only [hn]
    rw [if_neg (h e he)]
  | dir => simp [hn]
  | zipf es => simp [hn]

theorem filesUnder_eq_fileProj (l : List (FsPath × Node)) (src : FsPath)
    (h : ∀ e ∈ l, src <+: e.1 ∧ e.1 ≠ src) :
    (FS.mk l).filesUnder src = l.filterMap fileProj := by
  unfold FS.filesUnder
  induction l with
  | nil => rfl
  | cons e rest ih =>
    simp only [List.filterMap_cons]
    have hrest := ih (fun a ha => h a (List.mem_cons_of_mem e ha))
    cases hn : e.2 with
    | file c =>
      simp only [hn, if_pos (h e (List.mem_cons_self e rest))]
      rw [show fileProj e = some (e.1, c) from by rw [fileProj, hn], hrest]
    | dir =>
      rw [show fileProj e = none from by rw [fileProj, hn], hrest]
    | zipf es =>
      rw [show fileProj e = none from by rw [fileProj, hn], hrest]

/-- The master success run of `json2file` on a valid map and a
well-placed configuration: the call returns the archive path, the
archive node holds exactly one entry per map key named
`project/<key>` with the key's content, the staging directory is gone,
the base and output directories exist, and every other path is
untouched. -/
theorem json2file_ok_spec (fs : FS) (m : List (String × String)) (base out : FsPath)
    (proj : String)
    (hname : _validate_project_name proj = .ok ())
    (hvk : ∀ kv ∈ m, ValidKey kv.1)
    (hpw : List.Pairwise (fun a b => ¬ pathParts a.1 <+: pathParts b.1 ∧
      ¬ pathParts b.1 <+: pathParts a.1) m)
    (hbase : ∀ q, q <+: base → q ≠ [] → fs.lookup q = none ∨ fs.lookup q = some .dir)
    (hout : ∀ q, q <+: out → q ≠ [] → fs.lookup q = none ∨ fs.lookup q = some .dir)
    (htmp : fs.lookup (base ++ [proj]) = some .dir ∨
      (fs.lookup (base ++ [proj]) = none ∧
        ∀ q, base ++ [proj] <+: q → q ≠ base ++ [proj] → fs.lookup q = none))
    (hz1 : ¬ base ++ [proj] <+: out ++ [proj ++ ".zip"])
    (hz2 : ¬ out ++ [proj ++ ".zip"] <+: base ++ [proj])
    (hz3 : ¬ out ++ [proj ++ ".zip"] <+: base)
    (hz4 : fs.lookup (out ++ [proj ++ ".zip"]) ≠ some .dir) :
    ∃ fs2, json2file fs (.dict (m.map (fun kv => (.str kv.1, .str kv.2)))) base out proj
        = (fs2, .ok (out ++ [proj ++ ".zip"])) ∧
      ∀ q, fs2.lookup q =
        if base ++ [proj] <+: q then none
        else if q = out ++ [proj ++ ".zip"] then
          some (.zipf (m.map (fun kv => (proj ++ "/" ++ kv.1, kv.2))))
        else if (q <+: base ∨ q <+: out) ∧ q ≠ [] then some .dir
        else fs.lookup q := by
  set tmp : FsPath := base ++ [proj] with htmpdef
  set zipP : FsPath := out ++ [proj ++ ".zip"] with hzipdef
  have htmpne : tmp ≠ [] := by simp [htmpdef]
  have hzipne : zipP ≠ [] := by simp [hzipdef]
  have hziptmp : zipP ≠ tmp := fun he => hz1 (he ▸ List.prefix_rfl)
  have htmpout : ¬ tmp <+: out := fun hc =>
    hz1 (hc.trans (List.prefix_append out [proj ++ ".zip"]))
  have htmpbase : ¬ tmp <+: base := by
    intro hc
    have := hc.length_le
    simp [htmpdef] at this
  -- step 1: mkdir of the base directory
  rcases fs.mkdirP_spec base hbase with ⟨fs1, hok1, hchar1⟩
  -- step 2: mkdir of the output directory
  have hout1 : ∀ q, q <+: out → q ≠ [] → fs1.lookup q = none ∨ fs1.lookup q = some .dir := by
    intro q h1 h2
    rw [hchar1]
    by_cases hb : q <+: base ∧ q ≠ []
    · rw [if_pos hb]; exact Or.inr rfl
    · rw [if_neg hb]; exact hout q h1 h2
  rcases fs1.mkdirP_spec out hout1 with ⟨fs2, hok2, hchar2⟩
  have hchar12 : ∀ q, fs2.lookup q =
      if ((q <+: base ∨ q <+: out) ∧ q ≠ []) then some .dir else fs.lookup q := by
    intro q
    rw [hchar2, hchar1]
    by_cases ho : q <+: out ∧ q ≠ []
    · rw [if_pos ho, if_pos ⟨Or.inr ho.1, ho.2⟩]
    · rw [if_neg ho]
      by_cases hb : q <+: base ∧ q ≠ []
      · rw [if_pos hb, if_pos ⟨Or.inl hb.1, hb.2⟩]
      · rw [if_neg hb, if_neg (by
          rintro ⟨hor | hor, hne⟩
          · exact hb ⟨hor, hne⟩
          · exact ho ⟨hor, hne⟩)]
  -- step 3: recreate the staging directory
  have hchain3 : ∀ q, q <+: tmp → q ≠ tmp → fs2.isDirAt q := by
    intro q h1 h2
    by_cases hqn : q = []
    · exact Or.inl hqn
    · refine Or.inr ?_
      have hqb : q <+: base := by
        rcases List.prefix_concat_iff.mp h1 with hx | hx
        · exact absurd hx h2
        · exact hx
      rw [hchar12, if_pos ⟨Or.inl hqb, hqn⟩]
  have htmp2 : fs2.lookup tmp = some .dir ∨
      (fs2.lookup tmp = none ∧ ∀ q, tmp <+: q → q ≠ tmp → fs2.lookup q = none) := by
    have htl : fs2.lookup tmp = fs.lookup tmp := by
      rw [hchar12, if_neg]
      rintro ⟨hor | hor, _⟩
      · exact htmpbase hor
      · exact htmpout hor
    rcases htmp with h1 | ⟨h1, h2⟩
    · exact Or.inl (by rw [htl]; exact h1)
    · refine Or.inr ⟨by rw [htl]; exact h1, fun q hq1 hq2 => ?_⟩
      rw [hchar12, if_neg]
      · exact h2 q hq1 hq2
      · rintro ⟨hor | hor, _⟩
        · exact htmpbase (hq1.trans hor)
        · exact htmpout (hq1.trans hor)
  rcases recreate_dir_spec fs2 tmp htmpne hchain3 htmp2 with ⟨fs3, heq3, hchar3, hclean3⟩
  -- step 4: write the staged files
  have htmp4 : ∀ q, q <+: tmp → fs3.isDirAt q := by
    intro q hq
    by_cases hqt : q = tmp
    · exact Or.inr (by rw [hchar3, if_pos hqt])
    · rcases hchain3 q hq hqt with h1 | h1
      · exact Or.inl h1
      · refine Or.inr ?_
        rw [hchar3, if_neg hqt, if_neg (fun hx => hqt
          (hq.eq_of_length (Nat.le_antisymm hq.length_le hx.length_le)))]
        rw [hchar12] at h1 ⊢
        exact h1
  have hst4 : ∀ kv ∈ m, fs3.lookup (tmp ++ pathParts kv.1) = none ∧
      ∀ q, tmp <+: q → q <+: tmp ++ pathParts kv.1 → q ≠ tmp ++ pathParts kv.1 →
        fs3.lookup q = none ∨ fs3.lookup q = some .dir := by
    intro kv hkv
    have hparts : pathParts kv.1 ≠ [] := pathParts_ne_nil_of_validKey kv.1 (hvk kv hkv)
    have htne2 : tmp ++ pathParts kv.1 ≠ tmp := by
      intro he
      have := congrArg List.length he
      simp only [List.length_append] at this
      exact hparts (List.length_eq_zero.mp (by omega))
    constructor
    · rw [hchar3, if_neg htne2, if_pos (List.prefix_append tmp (pathParts kv.1))]
    · intro q h1 h2 h3
      by_cases hqt : q = tmp
      · exact Or.inr (by rw [hchar3, if_pos hqt])
      · exact Or.inl (by rw [hchar3, if_neg hqt, if_pos h1])
  rcases write_files_spec m fs3 tmp htmp4 hvk hpw hst4 with ⟨delta, heq4, hmem4, hfile4⟩
  set fs4 : FS := ⟨fs3.entries ++ delta⟩ with hfs4
  -- the staged files under the staging directory
  have hfu : fs4.filesUnder tmp = m.map (fun kv => (tmp ++ pathParts kv.1, kv.2)) := by
    have h1 : fs4.filesUnder tmp
        = (FS.mk fs3.entries).filesUnder tmp ++ (FS.mk delta).filesUnder tmp := by
      rw [hfs4]
      exact filesUnder_append fs3.entries delta tmp
    rw [h1, filesUnder_eq_nil_of_clean fs3.entries tmp hclean3,
      filesUnder_eq_fileProj delta tmp hmem4, hfile4]
    simp
  -- step 5: build the archive
  have hz4' : fs4.lookup zipP ≠ some .dir := by
    rw [hfs4, FS.lookup_append]
    have h3 : fs3.lookup zipP = fs.lookup zipP := by
      rw [hchar3, if_neg hziptmp, if_neg hz1, hchar12, if_neg]
      rintro ⟨hor | hor, _⟩
      · exact hz3 hor
      · have := hor.length_le
        simp [hzipdef] at this
    rw [h3]
    rcases hlq : fs.lookup zipP with _ | n
    · simp only []
      rw [lookupEntries_none delta zipP (fun e he => fun hx => hz1 (hx ▸ (hmem4 e he).1))]
      simp
    · simp only []
      rw [← hlq]
      exact hz4
  have hdirout4 : fs4.isDirAt out := by
    by_cases hon : out = []
    · exact Or.inl hon
    · refine Or.inr ?_
      rw [hfs4, FS.lookup_append]
      have h3 : fs3.lookup out = some .dir := by
        have hot : out ≠ tmp := fun he => htmpout (he ▸ List.prefix_rfl)
        rw [hchar3, if_neg hot, if_neg htmpout, hchar12,
          if_pos ⟨Or.inr List.prefix_rfl, hon⟩]
      rw [h3]
  rcases make_zip_spec fs4 tmp out (proj ++ ".zip") hz4' hdirout4 hz1
    with ⟨fs5, heq5, hchar5⟩
  -- the archive entry list
  have hentries : (fs4.filesUnder tmp).map
      (fun pr => (joinSlash (pr.1.drop tmp.dropLast.length), pr.2))
      = m.map (fun kv => (proj ++ "/" ++ kv.1, kv.2)) := by
    rw [hfu, List.map_map]
    refine List.map_congr_left (fun kv hkv => ?_)
    show (joinSlash ((tmp ++ pathParts kv.1).drop tmp.dropLast.length), kv.2) = _
    have hdl : tmp.dropLast = base := List.dropLast_concat
    have hdrop : (tmp ++ pathParts kv.1).drop base.length = proj :: pathParts kv.1 := by
      rw [htmpdef, List.append_assoc]
      have := List.drop_left base ([proj] ++ pathParts kv.1)
      rw [this]
      rfl
    rw [hdl, hdrop, joinSlash_cons_validKey proj kv.1 (hvk kv hkv)]
  -- step 6: the guaranteed cleanup
  have htmp5 : fs5.lookup tmp = some .dir := by
    rw [hchar5, if_neg hziptmp.symm, hfs4, FS.lookup_append]
    rw [show fs3.lookup tmp = some .dir from by rw [hchar3, if_pos rfl]]
  have hchar6 := safe_remove_dir_of_dir fs5 tmp htmp5
  -- assemble the run
  refine ⟨_safe_remove_dir fs5 tmp, ?_, ?_⟩
  · show json2file fs (.dict (m.map (fun kv => (.str kv.1, .str kv.2)))) base out proj = _
    simp only [json2file, _parse_file_map, ensure_str_str_map m, hname]
    simp only [_ensure_dir, hok1, hok2]
    simp only [packCore, ← htmpdef, heq3, heq4, ← hfs4, heq5]
  · intro q
    rw [hchar6 q]
    by_cases h1 : tmp <+: q
    · rw [if_pos h1, if_pos h1]
    · rw [if_neg h1, hchar5, if_neg h1]
      by_cases h2 : q = zipP
      · rw [if_pos h2, if_pos h2, hentries]
      · rw [if_neg h2, if_neg h2, hfs4, FS.lookup_append]
        have h3 : fs3.lookup q =
            if (q <+: base ∨ q <+: out) ∧ q ≠ [] then some .dir else fs.lookup q := by
          have hqt : q ≠ tmp := fun he => h1 (he ▸ List.prefix_rfl)
          rw [hchar3, if_neg hqt, if_neg h1, hchar12]
        rw [h3]
        by_cases h4 : (q <+: base ∨ q <+: out) ∧ q ≠ []
        · rw [if_pos h4]
        · rw [if_neg h4]
          rcases hlq : fs.lookup q with _ | n
          · simp only []
            exact lookupEntries_none delta q
              (fun e he hx => h1 (hx ▸ (hmem4 e he).1))
          · simp only []

instance {ε α : Type} [DecidableEq ε] [DecidableEq α] : DecidableEq (Except ε α) :=
  fun a b =>
    match a, b with
    | .ok x, .ok y =>
      if h : x = y then isTrue (by rw [h])
      else isFalse (fun hc => h (by cases hc; rfl))
    | .error x, .error y =>
      if h : x = y then isTrue (by rw [h])
      else isFalse (fun hc => h (by cases hc; rfl))
    | .ok _, .error _ => isFalse (fun hc => by cases hc)
    | .error _, .ok _ => isFalse (fun hc => by cases hc)

theorem singleton_infix_iff_mem (c : Char) (l : List Char) : [c] <:+: l ↔ c ∈ l := by
  constructor
  · intro h
    exact (List.singleton_sublist).mp h.sublist
  · intro h
    rcases List.mem_iff_append.mp h with ⟨s, t, hst⟩
    exact ⟨s, t, by rw [hst]; simp⟩

/-- C1: on the POSIX path flavour the code actually runs on, the keys
`"..\\evil.txt"` and `"C:\\abs\\path.txt"` are single path components
(the backslash is not a separator), so `json2file` accepts them and
packs them as ordinary file names, while `"../evil.txt"`,
`"/abs/path.txt"` and `"dir/../../evil.txt"` do fail with `UnsafePath`
— contradicting the claim (and the repository's own test
`test_json2file_rejects_path_traversal_in_keys`) that all five keys
fail. -/
theorem c1_pack_traversal_keys_posix_evaluation :
    json2file ⟨[]⟩ (.dict [(.str "..\\evil.txt", .str "boom")]) ["b"] ["o"] "safe"
      = (⟨[(["b"], .dir), (["o"], .dir),
           (["o", "safe.zip"], .zipf [("safe/..\\evil.txt", "boom")])]⟩,
         .ok ["o", "safe.zip"]) ∧
    json2file ⟨[]⟩ (.dict [(.str "C:\\abs\\path.txt", .str "boom")]) ["b"] ["o"] "safe"
      = (⟨[(["b"], .dir), (["o"], .dir),
           (["o", "safe.zip"], .zipf [("safe/C:\\abs\\path.txt", "boom")])]⟩,
         .ok ["o", "safe.zip"]) ∧
    json2file ⟨[]⟩ (.dict [(.str "../evil.txt", .str "boom")]) ["b"] ["o"] "safe"
      = (⟨[(["b"], .dir), (["o"], .dir)]⟩, .error .unsafePath) ∧
    json2file ⟨[]⟩ (.dict [(.str "/abs/path.txt", .str "boom")]) ["b"] ["o"] "safe"
      = (⟨[(["b"], .dir), (["o"], .dir)]⟩, .error .unsafePath) ∧
    json2file ⟨[]⟩ (.dict [(.str "dir/../../evil.txt", .str "boom")]) ["b"] ["o"] "safe"
      = (⟨[(["b"], .dir), (["o"], .dir)]⟩, .error .unsafePath) :=
  ⟨rfl, rfl, rfl, rfl, rfl⟩

/-- C3: `_validate_project_name` fails with `InvalidProjectName`
exactly when the name is empty, contains a slash or backslash
character, or contains the substring `".."` (and it never fails any
other way); in particular packing with each of the six listed names
and the file map `{"a.txt": "x"}` fails with `InvalidProjectName`. -/
theorem c3_validate_project_name_exactly :
    (∀ name : String,
      _validate_project_name name = .error .invalidProjectName ↔
        (name = "" ∨ '/' ∈ name.data ∨ '\\' ∈ name.data ∨ ['.', '.'] <:+: name.data)) ∧
    (∀ name : String,
      _validate_project_name name = .error .invalidProjectName ∨
        _validate_project_name name = .ok ()) ∧
    (json2file ⟨[]⟩ (.dict [(.str "a.txt", .str "x")]) ["b"] ["o"] "").2
      = .error .invalidProjectName ∧
    (json2file ⟨[]⟩ (.dict [(.str "a.txt", .str "x")]) ["b"] ["o"] "a/b").2
      = .error .invalidProjectName ∧
    (json2file ⟨[]⟩ (.dict [(.str "a.txt", .str "x")]) ["b"] ["o"] "a\\b").2
      = .error .invalidProjectName ∧
    (json2file ⟨[]⟩ (.dict [(.str "a.txt", .str "x")]) ["b"] ["o"] "..").2
      = .error .invalidProjectName ∧
    (json2file ⟨[]⟩ (.dict [(.str "a.txt", .str "x")]) ["b"] ["o"] "demo..").2
      = .error .invalidProjectName ∧
    (json2file ⟨[]⟩ (.dict [(.str "a.txt", .str "x")]) ["b"] ["o"] "de..mo").2
      = .error .invalidProjectName := by
  refine ⟨fun name => ?_, fun name => ?_, rfl, rfl, rfl, rfl, rfl, rfl⟩
  · unfold _validate_project_name
    have hslash : strContainsSub name "/" ↔ '/' ∈ name.data := by
      unfold strContainsSub
      exact singleton_infix_iff_mem '/' name.data
    have hback : strContainsSub name "\\" ↔ '\\' ∈ name.data := by
      unfold strContainsSub
      exact singleton_infix_iff_mem '\\' name.data
    have hdots : strContainsSub name ".." ↔ ['.', '.'] <:+: name.data := Iff.rfl
    by_cases h1 : name = ""
    · simp [h1]
    · rw [if_neg h1]
      by_cases h2 : strContainsSub name "/" ∨ strContainsSub name "\\"
      · rw [if_pos h2]
        constructor
        · intro _
          rcases h2 with h2 | h2
          · exact Or.inr (Or.inl (hslash.mp h2))
          · exact Or.inr (Or.inr (Or.inl (hback.mp h2)))
        · intro _; rfl
      · rw [if_neg h2]
        by_cases h3 : strContainsSub name ".."
        · rw [if_pos h3]
          constructor
          · intro _
            exact Or.inr (Or.inr (Or.inr (hdots.mp h3)))
          · intro _; rfl
        · rw [if_neg h3]
          constructor
          · intro hc; cases hc
          · rintro (hc | hc | hc | hc)
            · exact absurd hc h1
            · exact absurd (hslash.mpr hc) (fun hx => h2 (Or.inl hx))
            · exact absurd (hback.mpr hc) (fun hx => h2 (Or.inr hx))
            · exact absurd (hdots.mpr hc) h3
  · unfold _validate_project_name
    by_cases h1 : name = ""
    · simp [h1]
    · rw [if_neg h1]
      by_cases h2 : strContainsSub name "/" ∨ strContainsSub name "\\"
      · rw [if_pos h2]; exact Or.inl rfl
      · rw [if_neg h2]
        by_cases h3 : strContainsSub name ".."
        · rw [if_pos h3]; exact Or.inl rfl
        · rw [if_neg h3]; exact Or.inr rfl

/-- C10: file maps whose keys all pass `_sanitize_relpath`
individually can still make `json2file` raise an uncaught `OSError`
rather than any `FilePackError` validation kind: a key that is a
proper path-prefix of another key (`"a"` and `"a/b"`), and a key that
normalizes to the staging directory itself (`""` or `"."`). -/
theorem c10_sanitized_keys_os_error :
    (_sanitize_relpath "a" = .ok ["a"] ∧ _sanitize_relpath "a/b" = .ok ["a", "b"] ∧
      (json2file ⟨[]⟩ (.dict [(.str "a", .str "x"), (.str "a/b", .str "y")])
          ["b"] ["o"] "p").2 = .error (.osError .fileExists) ∧
      ¬ (Err.osError .fileExists).isValidationKind) ∧
    (_sanitize_relpath "" = .ok [] ∧
      (json2file ⟨[]⟩ (.dict [(.str "", .str "x")]) ["b"] ["o"] "p").2
        = .error (.osError .isADirectory) ∧
      ¬ (Err.osError .isADirectory).isValidationKind) ∧
    (_sanitize_relpath "." = .ok [] ∧
      (json2file ⟨[]⟩ (.dict [(.str ".", .str "x")]) ["b"] ["o"] "p").2
        = .error (.osError .isADirectory)) :=
  ⟨⟨rfl, rfl, rfl, fun h => h⟩, ⟨rfl, rfl, fun h => h⟩, rfl, rfl⟩

/-- After a successful run, the configuration conditions hold again in
the resulting state: the directories are in place, the staging
directory is gone, and the archive node is a regular file. -/
theorem cfg_preserved (fs fs2 : FS) (zipNode : Node) (base out : FsPath) (proj : String)
    (hchar : ∀ q, fs2.lookup q = if base ++ [proj] <+: q then none
        else if q = out ++ [proj ++ ".zip"] then some zipNode
        else if (q <+: base ∨ q <+: out) ∧ q ≠ [] then some .dir
        else fs.lookup q)
    (hzn : zipNode ≠ .dir)
    (hz1 : ¬ base ++ [proj] <+: out ++ [proj ++ ".zip"])
    (hz3 : ¬ out ++ [proj ++ ".zip"] <+: base) :
    (∀ q, q <+: base → q ≠ [] → fs2.lookup q = none ∨ fs2.lookup q = some .dir) ∧
    (∀ q, q <+: out → q ≠ [] → fs2.lookup q = none ∨ fs2.lookup q = some .dir) ∧
    (fs2.lookup (base ++ [proj]) = some .dir ∨ (fs2.lookup (base ++ [proj]) = none ∧
      ∀ q, base ++ [proj] <+: q → q ≠ base ++ [proj] → fs2.lookup q = none)) ∧
    fs2.lookup (out ++ [proj ++ ".zip"]) ≠ some .dir := by
  refine ⟨?_, ?_, ?_, ?_⟩
  · intro q h1 h2
    rw [hchar]
    rw [if_neg (fun hx => by
      have ha := hx.length_le
      have hb := h1.length_le
      simp only [List.length_append, List.length_cons, List.length_nil] at ha
      omega)]
    rw [if_neg (fun hx => hz3 (by rw [← hx]; exact h1))]
    rw [if_pos ⟨Or.inl h1, h2⟩]
    exact Or.inr rfl
  · intro q h1 h2
    rw [hchar]
    rw [if_neg (fun hx => hz1 ((hx.trans h1).trans (List.prefix_append out [proj ++ ".zip"])))]
    rw [if_neg (fun hx => by
      have ha := h1.length_le
      rw [hx] at ha
      simp only [List.length_append, List.length_cons, List.length_nil] at ha
      omega)]
    rw [if_pos ⟨Or.inr h1, h2⟩]
    exact Or.inr rfl
  · refine Or.inr ⟨?_, fun q hq1 hq2 => ?_⟩
    · rw [hchar, if_pos List.prefix_rfl]
    · rw [hchar, if_pos hq1]
  · rw [hchar, if_neg hz1, if_pos rfl]
    intro hx
    cases hx
    exact hzn rfl

/-- C2: for every valid file map (clean relative keys, no key a prefix
of another), valid project name, and well-placed staging root and
output directory, `json2file` produces an archive at
`output/<project>.zip` containing exactly one entry per map key, named
`project/<key>`, with the key's exact text content. -/
theorem c2_valid_map_archive_contents (fs : FS) (m : List (String × String))
    (base out : FsPath) (proj : String)
    (hname : _validate_project_name proj = .ok ())
    (hvk : ∀ kv ∈ m, ValidKey kv.1)
    (hpw : List.Pairwise (fun a b => ¬ pathParts a.1 <+: pathParts b.1 ∧
      ¬ pathParts b.1 <+: pathParts a.1) m)
    (hbase : ∀ q, q <+: base → q ≠ [] → fs.lookup q = none ∨ fs.lookup q = some .dir)
    (hout : ∀ q, q <+: out → q ≠ [] → fs.lookup q = none ∨ fs.lookup q = some .dir)
    (htmp : fs.lookup (base ++ [proj]) = some .dir ∨
      (fs.lookup (base ++ [proj]) = none ∧
        ∀ q, base ++ [proj] <+: q → q ≠ base ++ [proj] → fs.lookup q = none))
    (hz1 : ¬ base ++ [proj] <+: out ++ [proj ++ ".zip"])
    (hz2 : ¬ out ++ [proj ++ ".zip"] <+: base ++ [proj])
    (hz3 : ¬ out ++ [proj ++ ".zip"] <+: base)
    (hz4 : fs.lookup (out ++ [proj ++ ".zip"]) ≠ some .dir) :
    ∃ fs2, json2file fs (.dict (m.map (fun kv => (.str kv.1, .str kv.2)))) base out proj
        = (fs2, .ok (out ++ [proj ++ ".zip"])) ∧
      fs2.lookup (out ++ [proj ++ ".zip"])
        = some (.zipf (m.map (fun kv => (proj ++ "/" ++ kv.1, kv.2)))) := by
  rcases json2file_ok_spec fs m base out proj hname hvk hpw hbase hout htmp hz1 hz2 hz3 hz4
    with ⟨fs2, heq, hchar⟩
  exact ⟨fs2, heq, by rw [hchar, if_neg hz1, if_pos rfl]⟩

/-- Witness for C2: the demo scenario of the spec. -/
theorem c2_valid_map_archive_contents_witness :
    ∃ fs2, json2file ⟨[]⟩ (.dict ([("src/main.py", "hello\n"), ("README.md", "# Demo\n"),
        ("config/app.json", "x\n")].map (fun kv => (.str kv.1, .str kv.2))))
        ["w"] ["o"] "demo"
        = (fs2, .ok (["o"] ++ ["demo" ++ ".zip"])) ∧
      fs2.lookup (["o"] ++ ["demo" ++ ".zip"])
        = some (.zipf ([("src/main.py", "hello\n"), ("README.md", "# Demo\n"),
            ("config/app.json", "x\n")].map (fun kv => ("demo" ++ "/" ++ kv.1, kv.2)))) :=
  c2_valid_map_archive_contents ⟨[]⟩
    [("src/main.py", "hello\n"), ("README.md", "# Demo\n"), ("config/app.json", "x\n")]
    ["w"] ["o"] "demo" rfl (by decide) (by decide)
    (fun q _ _ => Or.inl rfl) (fun q _ _ => Or.inl rfl)
    (Or.inr ⟨rfl, fun q _ _ => rfl⟩)
    (by decide) (by decide) (by decide) (by decide)

/-- C6: running `json2file` twice with identical valid inputs
succeeds both times and the second archive node is identical to the
first (entry list and contents): the staging directory is fully reset
by the second run. -/
theorem c6_repack_identical_archive (fs : FS) (m : List (String × String))
    (base out : FsPath) (proj : String)
    (hname : _validate_project_name proj = .ok ())
    (hvk : ∀ kv ∈ m, ValidKey kv.1)
    (hpw : List.Pairwise (fun a b => ¬ pathParts a.1 <+: pathParts b.1 ∧
      ¬ pathParts b.1 <+: pathParts a.1) m)
    (hbase : ∀ q, q <+: base → q ≠ [] → fs.lookup q = none ∨ fs.lookup q = some .dir)
    (hout : ∀ q, q <+: out → q ≠ [] → fs.lookup q = none ∨ fs.lookup q = some .dir)
    (htmp : fs.lookup (base ++ [proj]) = some .dir ∨
      (fs.lookup (base ++ [proj]) = none ∧
        ∀ q, base ++ [proj] <+: q → q ≠ base ++ [proj] → fs.lookup q = none))
    (hz1 : ¬ base ++ [proj] <+: out ++ [proj ++ ".zip"])
    (hz2 : ¬ out ++ [proj ++ ".zip"] <+: base ++ [proj])
    (hz3 : ¬ out ++ [proj ++ ".zip"] <+: base)
    (hz4 : fs.lookup (out ++ [proj ++ ".zip"]) ≠ some .dir) :
    ∃ fs2 fs3,
      json2file fs (.dict (m.map (fun kv => (.str kv.1, .str kv.2)))) base out proj
        = (fs2, .ok (out ++ [proj ++ ".zip"])) ∧
      json2file fs2 (.dict (m.map (fun kv => (.str kv.1, .str kv.2)))) base out proj
        = (fs3, .ok (out ++ [proj ++ ".zip"])) ∧
      fs3.lookup (out ++ [proj ++ ".zip"]) = fs2.lookup (out ++ [proj ++ ".zip"]) ∧
      fs2.lookup (out ++ [proj ++ ".zip"])
        = some (.zipf (m.map (fun kv => (proj ++ "/" ++ kv.1, kv.2)))) := by
  rcases json2file_ok_spec fs m base out proj hname hvk hpw hbase hout htmp hz1 hz2 hz3 hz4
    with ⟨fs2, heq, hchar⟩
  rcases cfg_preserved fs fs2 (.zipf (m.map (fun kv => (proj ++ "/" ++ kv.1, kv.2))))
      base out proj hchar (by intro h; cases h) hz1 hz3
    with ⟨hbase2, hout2, htmp2, hz42⟩
  rcases json2file_ok_spec fs2 m base out proj hname hvk hpw hbase2 hout2 htmp2 hz1 hz2 hz3 hz42
    with ⟨fs3, heq2, hchar2⟩
  refine ⟨fs2, fs3, heq, heq2, ?_, ?_⟩
  · rw [hchar2, if_neg hz1, if_pos rfl, hchar, if_neg hz1, if_pos rfl]
  · rw [hchar, if_neg hz1, if_pos rfl]

/-- Witness for C6: repacking the demo map is reproducible. -/
theorem c6_repack_identical_archive_witness :
    ∃ fs2 fs3,
      json2file ⟨[]⟩ (.dict ([("a.txt", "A\n"), ("d/b.txt", "B\n")].map
          (fun kv => (.str kv.1, .str kv.2)))) ["w"] ["o"] "p1"
        = (fs2, .ok (["o"] ++ ["p1" ++ ".zip"])) ∧
      json2file fs2 (.dict ([("a.txt", "A\n"), ("d/b.txt", "B\n")].map
          (fun kv => (.str kv.1, .str kv.2)))) ["w"] ["o"] "p1"
        = (fs3, .ok (["o"] ++ ["p1" ++ ".zip"])) ∧
      fs3.lookup (["o"] ++ ["p1" ++ ".zip"]) = fs2.lookup (["o"] ++ ["p1" ++ ".zip"]) ∧
      fs2.lookup (["o"] ++ ["p1" ++ ".zip"])
        = some (.zipf ([("a.txt", "A\n"), ("d/b.txt", "B\n")].map
            (fun kv => ("p1" ++ "/" ++ kv.1, kv.2)))) :=
  c6_repack_identical_archive ⟨[]⟩ [("a.txt", "A\n"), ("d/b.txt", "B\n")]
    ["w"] ["o"] "p1" rfl (by decide) (by decide)
    (fun q _ _ => Or.inl rfl) (fun q _ _ => Or.inl rfl)
    (Or.inr ⟨rfl, fun q _ _ => rfl⟩)
    (by decide) (by decide) (by decide) (by decide)

theorem slash_name_inj (proj k1 k2 : String)
    (h : proj ++ "/" ++ k1 = proj ++ "/" ++ k2) : k1 = k2 := by
  have hd := congrArg String.data h
  simp only [String.data_append, List.append_assoc] at hd
  exact String.ext (List.append_cancel_left (List.append_cancel_left hd))

/-- C7: an archive already present at the target path is replaced, not
merged: packing a second map under the same project name yields an
archive holding exactly the second map's entries, and (for disjoint
key sets) no entry name stemming from the first map remains. -/
theorem c7_existing_archive_replaced (fs : FS) (m1 m2 : List (String × String))
    (base out : FsPath) (proj : String)
    (hname : _validate_project_name proj = .ok ())
    (hvk1 : ∀ kv ∈ m1, ValidKey kv.1)
    (hpw1 : List.Pairwise (fun a b => ¬ pathParts a.1 <+: pathParts b.1 ∧
      ¬ pathParts b.1 <+: pathParts a.1) m1)
    (hvk2 : ∀ kv ∈ m2, ValidKey kv.1)
    (hpw2 : List.Pairwise (fun a b => ¬ pathParts a.1 <+: pathParts b.1 ∧
      ¬ pathParts b.1 <+: pathParts a.1) m2)
    (hdisj : ∀ kv1 ∈ m1, ∀ kv2 ∈ m2, kv1.1 ≠ kv2.1)
    (hbase : ∀ q, q <+: base → q ≠ [] → fs.lookup q = none ∨ fs.lookup q = some .dir)
    (hout : ∀ q, q <+: out → q ≠ [] → fs.lookup q = none ∨ fs.lookup q = some .dir)
    (htmp : fs.lookup (base ++ [proj]) = some .dir ∨
      (fs.lookup (base ++ [proj]) = none ∧
        ∀ q, base ++ [proj] <+: q → q ≠ base ++ [proj] → fs.lookup q = none))
    (hz1 : ¬ base ++ [proj] <+: out ++ [proj ++ ".zip"])
    (hz2 : ¬ out ++ [proj ++ ".zip"] <+: base ++ [proj])
    (hz3 : ¬ out ++ [proj ++ ".zip"] <+: base)
    (hz4 : fs.lookup (out ++ [proj ++ ".zip"]) ≠ some .dir) :
    ∃ fs2 fs3,
      json2file fs (.dict (m1.map (fun kv => (.str kv.1, .str kv.2)))) base out proj
        = (fs2, .ok (out ++ [proj ++ ".zip"])) ∧
      fs2.lookup (out ++ [proj ++ ".zip"])
        = some (.zipf (m1.map (fun kv => (proj ++ "/" ++ kv.1, kv.2)))) ∧
      json2file fs2 (.dict (m2.map (fun kv => (.str kv.1, .str kv.2)))) base out proj
        = (fs3, .ok (out ++ [proj ++ ".zip"])) ∧
      fs3.lookup (out ++ [proj ++ ".zip"])
        = some (.zipf (m2.map (fun kv => (proj ++ "/" ++ kv.1, kv.2)))) ∧
      ∀ kv1 ∈ m1, ∀ entry ∈ m2.map (fun kv => (proj ++ "/" ++ kv.1, kv.2)),
        entry.1 ≠ proj ++ "/" ++ kv1.1 := by
  rcases json2file_ok_spec fs m1 base out proj hname hvk1 hpw1 hbase hout htmp hz1 hz2 hz3 hz4
    with ⟨fs2, heq, hchar⟩
  rcases cfg_preserved fs fs2 (.zipf (m1.map (fun kv => (proj ++ "/" ++ kv.1, kv.2))))
      base out proj hchar (by intro h; cases h) hz1 hz3
    with ⟨hbase2, hout2, htmp2, hz42⟩
  rcases json2file_ok_spec fs2 m2 base out proj hname hvk2 hpw2 hbase2 hout2 htmp2 hz1 hz2 hz3 hz42
    with ⟨fs3, heq2, hchar2⟩
  refine ⟨fs2, fs3, heq, by rw [hchar, if_neg hz1, if_pos rfl], heq2,
    by rw [hchar2, if_neg hz1, if_pos rfl], ?_⟩
  intro kv1 h1 entry h2 hc
  rcases List.mem_map.mp h2 with ⟨kv2, hkv2, hent⟩
  rw [← hent] at hc
  exact hdisj kv1 h1 kv2 hkv2 (slash_name_inj proj kv2.1 kv1.1 hc).symm

/-- Witness for C7: the second pack with a different map replaces the
archive wholesale. -/
theorem c7_existing_archive_replaced_witness :
    ∃ fs2 fs3,
      json2file ⟨[]⟩ (.dict ([("old.txt", "old\n")].map
          (fun kv => (.str kv.1, .str kv.2)))) ["w"] ["o"] "demo"
        = (fs2, .ok (["o"] ++ ["demo" ++ ".zip"])) ∧
      fs2.lookup (["o"] ++ ["demo" ++ ".zip"])
        = some (.zipf ([("old.txt", "old\n")].map
            (fun kv => ("demo" ++ "/" ++ kv.1, kv.2)))) ∧
      json2file fs2 (.dict ([("x.txt", "new\n")].map
          (fun kv => (.str kv.1, .str kv.2)))) ["w"] ["o"] "demo"
        = (fs3, .ok (["o"] ++ ["demo" ++ ".zip"])) ∧
      fs3.lookup (["o"] ++ ["demo" ++ ".zip"])
        = some (.zipf ([("x.txt", "new\n")].map
            (fun kv => ("demo" ++ "/" ++ kv.1, kv.2)))) ∧
      ∀ kv1 ∈ [("old.txt", "old\n")],
        ∀ entry ∈ [("x.txt", "new\n")].map
          (fun kv => ("demo" ++ "/" ++ kv.1, kv.2)),
        entry.1 ≠ "demo" ++ "/" ++ kv1.1 :=
  c7_existing_archive_replaced ⟨[]⟩ [("old.txt", "old\n")] [("x.txt", "new\n")]
    ["w"] ["o"] "demo" rfl (by decide) (by decide) (by decide) (by decide) (by decide)
    (fun q _ _ => Or.inl rfl) (fun q _ _ => Or.inl rfl)
    (Or.inr ⟨rfl, fun q _ _ => rfl⟩)
    (by decide) (by decide) (by decide) (by decide)

/-- C8: `file2storage` fails with `FileNotFound` when the resolved
path does not point at an existing regular file, and otherwise returns
exactly the local-file scheme prefix followed by the percent-encoded
POSIX rendering of the absolute path — a URL beginning with
`file://`. -/
theorem c8_file2storage_contract :
    (∀ (fs : FS) (p : FsPath), ¬ (fs.pathExists p ∧ fs.isRegularFile p) →
      file2storage fs p = .error .fileNotFound) ∧
    (∀ (fs : FS) (p : FsPath), fs.pathExists p → fs.isRegularFile p →
      file2storage fs p = .ok ("file://" ++ pyQuote (posixRender p)) ∧
      ∃ rest, "file://" ++ pyQuote (posixRender p) = "file://" ++ rest) := by
  constructor
  · intro fs p h
    unfold file2storage
    rw [if_neg h]
  · intro fs p h1 h2
    refine ⟨?_, pyQuote (posixRender p), rfl⟩
    unfold file2storage
    rw [if_pos ⟨h1, h2⟩]
    rfl

/-- Witness for C8: an existing archive file gets a `file://` URL; a
missing path fails with `FileNotFound`. -/
theorem c8_file2storage_contract_witness :
    (file2storage ⟨[(["out", "a.zip"], .file "abc")]⟩ ["out", "missing.zip"]
      = .error .fileNotFound) ∧
    (file2storage ⟨[(["out", "a.zip"], .file "abc")]⟩ ["out", "a.zip"]
      = .ok ("file://" ++ pyQuote (posixRender ["out", "a.zip"])) ∧
      ∃ rest, "file://" ++ pyQuote (posixRender ["out", "a.zip"]) = "file://" ++ rest) :=
  ⟨c8_file2storage_contract.1 ⟨[(["out", "a.zip"], .file "abc")]⟩ ["out", "missing.zip"]
      (by decide),
    c8_file2storage_contract.2 ⟨[(["out", "a.zip"], .file "abc")]⟩ ["out", "a.zip"]
      (by decide) (by decide)⟩

theorem rmtree_ok_char (fs fs1 : FS) (p : FsPath) (h : fs.rmtree p = .ok fs1) :
    ∀ q, fs1.lookup q = if p <+: q then none else fs.lookup q := by
  rcases hl : fs.lookup p with _ | n
  · rw [FS.rmtree, hl] at h; cases h
  · cases n with
    | file c => rw [FS.rmtree, hl] at h; cases h
    | zipf es => rw [FS.rmtree, hl] at h; cases h
    | dir =>
      rcases fs.rmtree_spec p hl with ⟨fs2, hok, hchar, _⟩
      rw [hok] at h
      cases h
      exact hchar

/-- C5 (counterexample): for an input rejected by the map parser, the
error is raised before the `try` block, so the `finally` cleanup does
not run on that exit path of `json2file`: a pre-existing stale staging
directory survives untouched, although running the cleanup would have
removed it. -/
theorem c5_no_cleanup_on_parse_error_exit :
    json2file ⟨[(["b", "p"], .dir)]⟩ .other ["b"] ["o"] "p"
      = (⟨[(["b", "p"], .dir)]⟩, .error .invalidFileMap) ∧
    _safe_remove_dir ⟨[(["b", "p"], .dir)]⟩ (["b"] ++ ["p"]) ≠ ⟨[(["b", "p"], .dir)]⟩ :=
  ⟨rfl, by decide⟩

/-- C5 (amended): once the staging scope is entered — after the map
parses, the project name validates, and the base and output
directories are ensured — the cleanup of the staging directory runs on
every exit of the scope, normal or error, and the outcome component is
exactly the outcome of the scope body, never replaced by the cleanup;
any failure inside the cleanup itself is swallowed, leaving the state
as it was.  Validation errors raised before the scope exit `json2file`
without running the cleanup. -/
theorem c5_scoped_cleanup_guarantee :
    (∀ (fs : FS) (fm : FileMapInput) (base out : FsPath) (proj : String)
        (m : List (String × String)),
      _parse_file_map fm = .ok m → _validate_project_name proj = .ok () →
      json2file fs fm base out proj =
        (match _ensure_dir fs base with
         | (fs1, .error e) => (fs1, .error e)
         | (fs1, .ok ()) =>
           match _ensure_dir fs1 out with
           | (fs2, .error e) => (fs2, .error e)
           | (fs2, .ok ()) =>
             (_safe_remove_dir (packCore fs2 m (base ++ [proj]) out proj).1 (base ++ [proj]),
              (packCore fs2 m (base ++ [proj]) out proj).2))) ∧
    (∀ (fs : FS) (p : FsPath) (e : OsErr), fs.rmtree p = .error e →
      _safe_remove_dir fs p = fs) ∧
    (∀ (fs : FS) (p : FsPath),
      _safe_remove_dir fs p = fs ∨ (_safe_remove_dir fs p).lookup p = none) := by
  refine ⟨?_, ?_, ?_⟩
  · intro fs fm base out proj m hp hv
    simp only [json2file, hp, hv]
  · intro fs p e he
    unfold _safe_remove_dir
    by_cases hex : fs.pathExists p
    · rw [if_pos hex, he]
    · rw [if_neg hex]
  · intro fs p
    unfold _safe_remove_dir
    by_cases hex : fs.pathExists p
    · rw [if_pos hex]
      rcases hr : fs.rmtree p with e | fs1
      · exact Or.inl rfl
      · refine Or.inr ?_
        rw [rmtree_ok_char fs fs1 p hr p, if_pos List.prefix_rfl]
    · rw [if_neg hex]
      exact Or.inl rfl

/-- Witness for C5 (amended): a concrete entered scope where the
cleanup equation holds, and a concrete swallowed cleanup failure. -/
theorem c5_scoped_cleanup_guarantee_witness :
    (json2file ⟨[]⟩ (.dict [(.str "a.txt", .str "x")]) ["b"] ["o"] "p" =
      (match _ensure_dir (⟨[]⟩ : FS) ["b"] with
       | (fs1, .error e) => (fs1, .error e)
       | (fs1, .ok ()) =>
         match _ensure_dir fs1 ["o"] with
         | (fs2, .error e) => (fs2, .error e)
         | (fs2, .ok ()) =>
           (_safe_remove_dir (packCore fs2 [("a.txt", "x")] (["b"] ++ ["p"]) ["o"] "p").1
              (["b"] ++ ["p"]),
            (packCore fs2 [("a.txt", "x")] (["b"] ++ ["p"]) ["o"] "p").2))) ∧
    _safe_remove_dir ⟨[(["x"], .file "c")]⟩ ["x"] = ⟨[(["x"], .file "c")]⟩ :=
  ⟨c5_scoped_cleanup_guarantee.1 ⟨[]⟩ (.dict [(.str "a.txt", .str "x")]) ["b"] ["o"] "p"
      [("a.txt", "x")] rfl rfl,
    c5_scoped_cleanup_guarantee.2.1 ⟨[(["x"], .file "c")]⟩ ["x"] .notADirectory rfl⟩

/-! ## Error classification and footprint lemmas for the failure paths -/

theorem sanitize_err_kind (rel : String) (e : Err)
    (h : _sanitize_relpath rel = .error e) : e = .unsafePath := by
  unfold _sanitize_relpath at h
  by_cases h1 : isAbsolutePath rel = true
  · rw [if_pos h1] at h; cases h; rfl
  · rw [if_neg h1] at h
    by_cases h2 : ((pathParts rel).any (fun part => part == ".." || part == "")) = true
    · rw [if_pos h2] at h; cases h; rfl
    · rw [if_neg h2] at h; cases h

theorem ensure_dir_err_kind (fs : FS) (p : FsPath) (fs2 : FS) (e : Err)
    (h : _ensure_dir fs p = (fs2, .error e)) : ∃ oe, e = .osError oe := by
  unfold _ensure_dir at h
  rcases hm : fs.mkdirP p with oe | fs1
  · rw [hm] at h
    cases h
    exact ⟨oe, rfl⟩
  · rw [hm] at h
    cases h

theorem ensure_dir_ok_iff (fs : FS) (p : FsPath) (fs2 : FS) :
    _ensure_dir fs p = (fs2, .ok ()) ↔ fs.mkdirP p = .ok fs2 := by
  unfold _ensure_dir
  rcases hm : fs.mkdirP p with oe | fs1
  · constructor
    · intro h; cases h
    · intro h; cases h
  · constructor
    · intro h; cases h; rfl
    · intro h; cases h; rfl

theorem writeOne_err_kind (fs : FS) (root : FsPath) (rel v : String) (fs2 : FS) (e : Err)
    (h : writeOne fs root rel v = (fs2, .error e)) :
    e = .unsafePath ∨ ∃ oe, e = .osError oe := by
  unfold writeOne at h
  rcases hs : _sanitize_relpath rel with es | parts
  · rw [hs] at h
    cases h
    exact Or.inl (sanitize_err_kind _ _ hs)
  · rw [hs] at h
    simp only [] at h
    by_cases hc : ¬ startsWithSepOf (root ++ parts) root ∧ root ++ parts ≠ root
    · rw [if_pos hc] at h
      cases h
      exact Or.inl rfl
    · rw [if_neg hc] at h
      rcases hm : fs.mkdirP (root ++ parts).dropLast with oe | fs1
      · rw [hm] at h; cases h; exact Or.inr ⟨oe, rfl⟩
      · rw [hm] at h
        simp only [] at h
        rcases hw : fs1.writeText (root ++ parts) v with oe | fs3
        · rw [hw] at h; cases h; exact Or.inr ⟨oe, rfl⟩
        · rw [hw] at h; cases h

theorem write_files_err_kind (m : List (String × String)) :
    ∀ (fs : FS) (root : FsPath) (fs2 : FS) (e : Err),
    _write_files fs root m = (fs2, .error e) →
    e = .unsafePath ∨ ∃ oe, e = .osError oe := by
  induction m with
  | nil => intro fs root fs2 e h; cases h
  | cons kv rest ih =>
    intro fs root fs2 e h
    obtain ⟨k, v⟩ := kv
    simp only [_write_files] at h
    rcases hw : writeOne fs root k v with ⟨fs1, r1⟩
    rw [hw] at h
    cases r1 with
    | error e1 =>
      simp only [] at h
      cases h
      exact writeOne_err_kind _ _ _ _ _ _ hw
    | ok u =>
      cases u
      exact ih fs1 root fs2 e h

theorem recreate_err_kind (fs : FS) (p : FsPath) (fs2 : FS) (e : Err)
    (h : _recreate_dir fs p = (fs2, .error e)) : ∃ oe, e = .osError oe := by
  unfold _recreate_dir at h
  by_cases hex : fs.pathExists p
  · rw [if_pos hex] at h
    rcases hr : fs.rmtree p with oe | fs1
    · rw [hr] at h; cases h; exact ⟨oe, rfl⟩
    · rw [hr] at h
      exact ensure_dir_err_kind fs1 p fs2 e h
  · rw [if_neg hex] at h
    exact ensure_dir_err_kind fs p fs2 e h

theorem make_zip_err_kind (fs : FS) (src out : FsPath) (zn : String) (fs2 : FS) (e : Err)
    (h : _make_zip fs src out zn = (fs2, .error e)) : ∃ oe, e = .osError oe := by
  simp only [_make_zip] at h
  by_cases hex : fs.pathExists (out ++ [zn])
  · rw [if_pos hex] at h
    rcases hu : fs.unlink (out ++ [zn]) with oe | fs1
    · rw [hu] at h
      simp only [] at h
      cases h
      exact ⟨oe, rfl⟩
    · rw [hu] at h
      simp only [] at h
      rcases hw : fs1.writeZip (out ++ [zn]) _ with oe | fs3
      · rw [hw] at h; cases h; exact ⟨oe, rfl⟩
      · rw [hw] at h; cases h
  · rw [if_neg hex] at h
    simp only [] at h
    rcases hw : fs.writeZip (out ++ [zn]) _ with oe | fs3
    · rw [hw] at h; cases h; exact ⟨oe, rfl⟩
    · rw [hw] at h; cases h

theorem mkdirP_preserves (fs fs2 : FS) (p q : FsPath)
    (hok : fs.mkdirP p = .ok fs2) (hq : ¬ (q <+: p ∧ q ≠ [])) :
    fs2.lookup q = fs.lookup q := by
  rcases mkdirGo_append p fs [] fs2 hok with ⟨delta, hent, hmem⟩
  have : fs2 = FS.mk (fs.entries ++ delta) := by
    cases fs2 with
    | mk es => exact congrArg FS.mk hent
  rw [this, FS.lookup_append]
  rcases hl : fs.lookup q with _ | n
  · simp only []
    refine lookupEntries_none delta q (fun e he hx => ?_)
    rcases hmem e he with ⟨⟨_, h2, h3⟩, _, _⟩
    rw [hx] at h2 h3
    exact hq ⟨by simpa using h2, h3⟩
  · rfl

theorem writeOne_preserves (fs : FS) (root : FsPath) (rel v : String) (q : FsPath)
    (hq1 : ¬ root <+: q) (hq2 : ¬ q <+: root) :
    ((writeOne fs root rel v).1).lookup q = fs.lookup q := by
  unfold writeOne
  rcases hs : _sanitize_relpath rel with es | parts
  · rfl
  · simp only []
    by_cases hc : ¬ startsWithSepOf (root ++ parts) root ∧ root ++ parts ≠ root
    · rw [if_pos hc]
    · rw [if_neg hc]
      have hqd : ¬ (q <+: (root ++ parts).dropLast ∧ q ≠ []) := by
        rintro ⟨hp, _⟩
        have hp2 : q <+: root ++ parts := hp.trans (List.dropLast_prefix _)
        rcases List.prefix_or_prefix_of_prefix hp2 (List.prefix_append root parts)
          with hc2 | hc2
        · exact hq2 hc2
        · exact hq1 hc2
      rcases hm : fs.mkdirP (root ++ parts).dropLast with oe | fs1
      · rfl
      · simp only []
        have hpres1 : fs1.lookup q = fs.lookup q := mkdirP_preserves fs fs1 _ q hm hqd
        rcases hw : fs1.writeText (root ++ parts) v with oe | fs3
        · exact hpres1
        · simp only []
          have : fs3 = fs1.setNode (root ++ parts) (.file v) := by
            unfold FS.writeText at hw
            by_cases hnil : root ++ parts = []
            · rw [if_pos hnil] at hw; cases hw
            · rw [if_neg hnil] at hw
              rcases hl : fs1.lookup (root ++ parts) with _ | n
              · rw [hl] at hw
                simp only [] at hw
                by_cases hd : fs1.isDirAt (root ++ parts).dropLast
                · rw [if_pos hd] at hw; cases hw; rfl
                · rw [if_neg hd] at hw; cases hw
              · rw [hl] at hw
                cases n with
                | dir => cases hw
                | file c =>
                  simp only [] at hw
                  by_cases hd : fs1.isDirAt (root ++ parts).dropLast
                  · rw [if_pos hd] at hw; cases hw; rfl
                  · rw [if_neg hd] at hw; cases hw
                | zipf es =>
                  simp only [] at hw
                  by_cases hd : fs1.isDirAt (root ++ parts).dropLast
                  · rw [if_pos hd] at hw; cases hw; rfl
                  · rw [if_neg hd] at hw; cases hw
          rw [this, FS.lookup_setNode, if_neg (fun hx => hq1 (by
            rw [hx]; exact List.prefix_append root parts))]
          exact hpres1

theorem write_files_preserves (m : List (String × String)) :
    ∀ (fs : FS) (root : FsPath) (q : FsPath),
    ¬ root <+: q → ¬ q <+: root →
    ((_write_files fs root m).1).lookup q = fs.lookup q := by
  induction m with
  | nil => intro fs root q _ _; rfl
  | cons kv rest ih =>
    intro fs root q hq1 hq2
    obtain ⟨k, v⟩ := kv
    simp only [_write_files]
    rcases hw : writeOne fs root k v with ⟨fs1, r1⟩
    have hpres := writeOne_preserves fs root k v q hq1 hq2
    rw [hw] at hpres
    cases r1 with
    | error e1 => exact hpres
    | ok u =>
      cases u
      simp only []
      rw [ih fs1 root q hq1 hq2]
      exact hpres

theorem recreate_preserves (fs : FS) (p q : FsPath)
    (hq1 : ¬ p <+: q) (hq2 : ¬ q <+: p) :
    ((_recreate_dir fs p).1).lookup q = fs.lookup q := by
  unfold _recreate_dir
  have hqd : ¬ (q <+: p ∧ q ≠ []) := fun hx => hq2 hx.1
  by_cases hex : fs.pathExists p
  · rw [if_pos hex]
    rcases hr : fs.rmtree p with oe | fs1
    · rfl
    · simp only [_ensure_dir]
      have hpres1 : fs1.lookup q = fs.lookup q := by
        rw [rmtree_ok_char fs fs1 p hr q, if_neg hq1]
      rcases hm : fs1.mkdirP p with oe | fs2
      · exact hpres1
      · simp only []
        rw [mkdirP_preserves fs1 fs2 p q hm hqd]
        exact hpres1
  · rw [if_neg hex]
    simp only [_ensure_dir]
    rcases hm : fs.mkdirP p with oe | fs2
    · rfl
    · simp only []
      exact mkdirP_preserves fs fs2 p q hm hqd

theorem safe_remove_preserves (fs : FS) (p q : FsPath) (hq : ¬ p <+: q) :
    (_safe_remove_dir fs p).lookup q = fs.lookup q := by
  unfold _safe_remove_dir
  by_cases hex : fs.pathExists p
  · rw [if_pos hex]
    rcases hr : fs.rmtree p with oe | fs1
    · rfl
    · rw [rmtree_ok_char fs fs1 p hr q, if_neg hq]
  · rw [if_neg hex]

/-- C4 (counterexample): an `UnsafePath` error does not occur before
every staging-directory mutation: `_write_files` (the stage of
`json2file` that raises it, between `_recreate_dir` and `_make_zip`)
has already written the first, safe key into the staging directory
when it raises `UnsafePath` on the second key. -/
theorem c4_write_precedes_unsafe_path :
    _write_files ⟨[(["b"], .dir), (["b", "p"], .dir)]⟩ ["b", "p"]
        [("ok.txt", "x"), ("../evil", "y")]
      = (⟨[(["b"], .dir), (["b", "p"], .dir), (["b", "p", "ok.txt"], .file "x")]⟩,
         .error .unsafePath) ∧
    (⟨[(["b"], .dir), (["b", "p"], .dir), (["b", "p", "ok.txt"], .file "x")]⟩ : FS)
      ≠ ⟨[(["b"], .dir), (["b", "p"], .dir)]⟩ :=
  ⟨rfl, by decide⟩

/-- C4 (amended): the parser and project-name validation errors
(`InvalidFileMap`, `InvalidJson`, `InvalidProjectName`) occur before
any filesystem mutation at all, so `json2file` returns the state
untouched; an `UnsafePath` error can occur after entries were already
written into the staging directory, but all validation-kind failures
leave the path of the output archive untouched (no archive is created,
modified, or deleted there), provided the archive path is not inside
the staging directory and not an ancestor of the staging root. -/
theorem c4_validation_failure_no_partial_archive :
    (∀ (fs : FS) (fm : FileMapInput) (base out : FsPath) (proj : String) (e : Err),
      (e = .invalidFileMap ∨ e = .invalidJson ∨ e = .invalidProjectName) →
      (json2file fs fm base out proj).2 = .error e →
      (json2file fs fm base out proj).1 = fs) ∧
    (∀ (fs : FS) (fm : FileMapInput) (base out : FsPath) (proj : String) (e : Err),
      e.isValidationKind →
      (json2file fs fm base out proj).2 = .error e →
      ¬ base ++ [proj] <+: out ++ [proj ++ ".zip"] →
      ¬ out ++ [proj ++ ".zip"] <+: base →
      ((json2file fs fm base out proj).1).lookup (out ++ [proj ++ ".zip"])
        = fs.lookup (out ++ [proj ++ ".zip"])) := by
  constructor
  · intro fs fm base out proj e hkind herr
    rcases hp : _parse_file_map fm with ep | m
    · simp only [json2file, hp]
    · rcases hv : _validate_project_name proj with ev | u
      · simp only [json2file, hp, hv]
      · cases u
        exfalso
        simp only [json2file, hp, hv] at herr
        rcases h1 : _ensure_dir fs base with ⟨fs1, r1⟩
        rw [h1] at herr
        cases r1 with
        | error e1 =>
          simp only [] at herr
          cases herr
          rcases ensure_dir_err_kind fs base fs1 _ h1 with ⟨oe, hoe⟩
          rw [hoe] at hkind
          rcases hkind with h | h | h <;> cases h
        | ok u =>
          cases u
          simp only [] at herr
          rcases h2 : _ensure_dir fs1 out with ⟨fs2, r2⟩
          rw [h2] at herr
          cases r2 with
          | error e2 =>
            simp only [] at herr
            cases herr
            rcases ensure_dir_err_kind fs1 out fs2 _ h2 with ⟨oe, hoe⟩
            rw [hoe] at hkind
            rcases hkind with h | h | h <;> cases h
          | ok u =>
            cases u
            simp only [] at herr
            rcases h3 : packCore fs2 m (base ++ [proj]) out proj with ⟨fs3, r3⟩
            rw [h3] at herr
            simp only [] at herr
            cases r3 with
            | ok z => cases herr
            | error e3 =>
              cases herr
              simp only [packCore] at h3
              rcases h4 : _recreate_dir fs2 (base ++ [proj]) with ⟨fsa, ra⟩
              rw [h4] at h3
              cases ra with
              | error ea =>
                simp only [] at h3
                cases h3
                rcases recreate_err_kind _ _ _ _ h4 with ⟨oe, hoe⟩
                rw [hoe] at hkind
                rcases hkind with h | h | h <;> cases h
              | ok u =>
                cases u
                simp only [] at h3
                rcases h5 : _write_files fsa (base ++ [proj]) m with ⟨fsb, rb⟩
                rw [h5] at h3
                cases rb with
                | error eb =>
                  simp only [] at h3
                  cases h3
                  rcases write_files_err_kind _ _ _ _ _ h5
                    with h | ⟨oe, hoe⟩
                  · rw [h] at hkind
                    rcases hkind with hk | hk | hk <;> cases hk
                  · rw [hoe] at hkind
                    rcases hkind with hk | hk | hk <;> cases hk
                | ok u =>
                  cases u
                  simp only [] at h3
                  rcases make_zip_err_kind _ _ _ _ _ _ h3
                    with ⟨oe, hoe⟩
                  rw [hoe] at hkind
                  rcases hkind with hk | hk | hk <;> cases hk
  · intro fs fm base out proj e hkind herr hz1 hz3
    have hz2 : ¬ out ++ [proj ++ ".zip"] <+: base ++ [proj] := by
      intro hx
      rcases List.prefix_concat_iff.mp hx with hx2 | hx2
      · exact hz1 (by rw [hx2])
      · exact hz3 hx2
    have hzb : ¬ (out ++ [proj ++ ".zip"] <+: base ∧ out ++ [proj ++ ".zip"] ≠ []) :=
      fun hx => hz3 hx.1
    have hzo : ¬ (out ++ [proj ++ ".zip"] <+: out ∧ out ++ [proj ++ ".zip"] ≠ []) := by
      rintro ⟨hx, _⟩
      have := hx.length_le
      simp only [List.length_append, List.length_cons, List.length_nil] at this
      omega
    rcases hp : _parse_file_map fm with ep | m
    · simp only [json2file, hp]
    · rcases hv : _validate_project_name proj with ev | u
      · simp only [json2file, hp, hv]
      · cases u
        simp only [json2file, hp, hv] at herr ⊢
        rcases h1 : _ensure_dir fs base with ⟨fs1, r1⟩
        rw [h1] at herr
        cases r1 with
        | error e1 =>
          simp only [] at herr
          cases herr
          rcases ensure_dir_err_kind fs base fs1 _ h1 with ⟨oe, hoe⟩
          rw [hoe] at hkind
          cases hkind
        | ok u =>
          cases u
          simp only [] at herr ⊢
          have hpres1 : fs1.lookup (out ++ [proj ++ ".zip"])
              = fs.lookup (out ++ [proj ++ ".zip"]) :=
            mkdirP_preserves fs fs1 base _ ((ensure_dir_ok_iff fs base fs1).mp h1) hzb
          rcases h2 : _ensure_dir fs1 out with ⟨fs2, r2⟩
          rw [h2] at herr
          cases r2 with
          | error e2 =>
            simp only [] at herr
            cases herr
            rcases ensure_dir_err_kind fs1 out fs2 _ h2 with ⟨oe, hoe⟩
            rw [hoe] at hkind
            cases hkind
          | ok u =>
            cases u
            simp only [] at herr ⊢
            have hpres2 : fs2.lookup (out ++ [proj ++ ".zip"])
                = fs1.lookup (out ++ [proj ++ ".zip"]) :=
              mkdirP_preserves fs1 fs2 out _ ((ensure_dir_ok_iff fs1 out fs2).mp h2) hzo
            rcases h3 : packCore fs2 m (base ++ [proj]) out proj with ⟨fs3, r3⟩
            rw [h3] at herr
            simp only [] at herr ⊢
            cases r3 with
            | ok z => cases herr
            | error e3 =>
              cases herr
              have hpres6 : (_safe_remove_dir fs3 (base ++ [proj])).lookup
                  (out ++ [proj ++ ".zip"]) = fs3.lookup (out ++ [proj ++ ".zip"]) :=
                safe_remove_preserves fs3 (base ++ [proj]) _ hz1
              rw [hpres6]
              simp only [packCore] at h3
              rcases h4 : _recreate_dir fs2 (base ++ [proj]) with ⟨fsa, ra⟩
              rw [h4] at h3
              have hpres3 : fsa.lookup (out ++ [proj ++ ".zip"])
                  = fs2.lookup (out ++ [proj ++ ".zip"]) := by
                have := recreate_preserves fs2 (base ++ [proj])
                  (out ++ [proj ++ ".zip"]) hz1 hz2
                rw [h4] at this
                exact this
              cases ra with
              | error ea =>
                simp only [] at h3
                cases h3
                rcases recreate_err_kind _ _ _ _ h4 with ⟨oe, hoe⟩
                rw [hoe] at hkind
                cases hkind
              | ok u =>
                cases u
                simp only [] at h3
                rcases h5 : _write_files fsa (base ++ [proj]) m with ⟨fsb, rb⟩
                rw [h5] at h3
                have hpres4 : fsb.lookup (out ++ [proj ++ ".zip"])
                    = fsa.lookup (out ++ [proj ++ ".zip"]) := by
                  have := write_files_preserves m fsa (base ++ [proj])
                    (out ++ [proj ++ ".zip"]) hz1 hz2
                  rw [h5] at this
                  exact this
                cases rb with
                | error eb =>
                  simp only [] at h3
                  cases h3
                  rw [hpres4, hpres3, hpres2, hpres1]
                | ok u =>
                  cases u
                  simp only [] at h3
                  rcases make_zip_err_kind _ _ _ _ _ _ h3
                    with ⟨oe, hoe⟩
                  rw [hoe] at hkind
                  cases hkind

/-- Witness for C4 (amended): a parse failure leaves the state
untouched, and an `UnsafePath` failure leaves the (absent) archive
path untouched. -/
theorem c4_validation_failure_no_partial_archive_witness :
    (json2file ⟨[]⟩ .other ["b"] ["o"] "p").1 = (⟨[]⟩ : FS) ∧
    ((json2file ⟨[]⟩ (.dict [(.str "ok.txt", .str "x"), (.str "../evil", .str "y")])
        ["b"] ["o"] "p").1).lookup (["o"] ++ ["p" ++ ".zip"])
      = (⟨[]⟩ : FS).lookup (["o"] ++ ["p" ++ ".zip"]) :=
  ⟨c4_validation_failure_no_partial_archive.1 ⟨[]⟩ .other ["b"] ["o"] "p"
      .invalidFileMap (Or.inl rfl) rfl,
    c4_validation_failure_no_partial_archive.2 ⟨[]⟩
      (.dict [(.str "ok.txt", .str "x"), (.str "../evil", .str "y")]) ["b"] ["o"] "p"
      .unsafePath (by decide) rfl (by decide) (by decide)⟩

/-! ## C9: the JSON text form and the dict form coincide -/

theorem hexVal_hexDigitChar : ∀ m : Nat, m < 16 → hexVal (hexDigitChar m) = some m := by
  decide

theorem hex4Val_hex4Chars (n : Nat) (h : n < 65536) :
    hex4Val (hexDigitChar (n / 4096 % 16)) (hexDigitChar (n / 256 % 16))
      (hexDigitChar (n / 16 % 16)) (hexDigitChar (n % 16)) = some n := by
  simp only [hex4Val]
  rw [hexVal_hexDigitChar _ (Nat.mod_lt _ (by norm_num)),
      hexVal_hexDigitChar _ (Nat.mod_lt _ (by norm_num)),
      hexVal_hexDigitChar _ (Nat.mod_lt _ (by norm_num)),
      hexVal_hexDigitChar _ (Nat.mod_lt _ (by norm_num))]
  simp only []
  congr 1
  omega

/-- Parsing a raw (unescaped) printable character. -/
theorem parseBody_rawChar (c : Char) (rest : List Char) (h1 : c ≠ '"')
    (h2 : c ≠ '\\') (h3 : 0x20 ≤ c.toNat) :
    parseJStringBody (c :: rest) =
      match parseJStringBody rest with
      | .ok (s, r) => .ok (c :: s, r)
      | .error e => .error e := by
  rw [parseJStringBody.eq_def]
  split
  · rename_i heq; cases heq
  · rename_i heq; cases heq; exact absurd rfl h1
  · rename_i heq; cases heq; exact absurd rfl h2
  · rename_i heq; cases heq; exact absurd rfl h2
  · rename_i heq; cases heq; rw [if_neg (by omega)]

/-- Parsing a single `\uXXXX` escape of a non-surrogate code point. -/
theorem parseBody_uEscape (rest : List Char) (n : Nat) (hub : n < 65536)
    (hns : n < 0xD800 ∨ 0xDFFF < n) :
    parseJStringBody ('\\' :: 'u' :: hex4Chars n ++ rest) =
      match parseJStringBody rest with
      | .ok (s, r) => .ok (Char.ofNat n :: s, r)
      | .error e => .error e := by
  simp only [hex4Chars, List.cons_append, List.nil_append]
  rw [parseJStringBody.eq_def]
  simp only []
  rw [hex4Val_hex4Chars n hub]
  simp only []
  rw [if_neg (by omega), if_neg (by omega)]

/-- Parsing a surrogate-pair escape of an astral code point. -/
theorem parseBody_surrogatePair (rest : List Char) (n : Nat) (h1 : 0x10000 ≤ n)
    (h2 : n < 0x110000) :
    parseJStringBody (('\\' :: 'u' :: hex4Chars (0xD800 + (n - 0x10000) / 0x400)) ++
        (('\\' :: 'u' :: hex4Chars (0xDC00 + (n - 0x10000) % 0x400)) ++ rest)) =
      match parseJStringBody rest with
      | .ok (s, r) => .ok (Char.ofNat n :: s, r)
      | .error e => .error e := by
  simp only [hex4Chars, List.cons_append, List.nil_append]
  rw [parseJStringBody.eq_def]
  simp only []
  rw [hex4Val_hex4Chars _ (by omega)]
  simp only []
  rw [if_pos (by constructor <;> omega)]
  rw [hex4Val_hex4Chars _ (by omega)]
  simp only []
  rw [if_pos (by constructor <;> omega)]
  have hcomb : 0x10000 + ((0xD800 + (n - 0x10000) / 0x400) - 0xD800) * 0x400 +
      ((0xDC00 + (n - 0x10000) % 0x400) - 0xDC00) = n := by omega
  rw [hcomb]

/-- Parsing a shorthand escape `\x` for `x` in the escape map. -/
theorem parseBody_shortEscape (x c : Char) (rest : List Char)
    (hx : escMap x = some c) :
    parseJStringBody ('\\' :: x :: rest) =
      match parseJStringBody rest with
      | .ok (s, r) => .ok (c :: s, r)
      | .error e => .error e := by
  have hxu : x ≠ 'u' := by
    intro h; subst h; simp [escMap] at hx
  rw [parseJStringBody.eq_def]
  split
  · rename_i heq; cases heq
  · rename_i heq; cases heq
  · rename_i heq; cases heq; exact absurd rfl hxu
  · rename_i heq; cases heq; rw [hx]
  · rename_i hcon heq; cases heq; exact absurd (hcon x rest rfl rfl) id

/-- The escape sequence the encoder emits for any character parses back
to exactly that character. -/
theorem parseBody_escapeChar (c : Char) (rest : List Char) :
    parseJStringBody (escapeChar c ++ rest) =
      match parseJStringBody rest with
      | .ok (s, r) => .ok (c :: s, r)
      | .error e => .error e := by
  by_cases hq : c = '"'
  · subst hq
    have he : escapeChar '"' = ['\\', '"'] := rfl
    rw [he, List.cons_append, List.cons_append, List.nil_append]
    exact parseBody_shortEscape '"' '"' rest rfl
  by_cases hb : c = '\\'
  · subst hb
    have he : escapeChar '\\' = ['\\', '\\'] := rfl
    rw [he, List.cons_append, List.cons_append, List.nil_append]
    exact parseBody_shortEscape '\\' '\\' rest rfl
  have hv : Nat.isValidChar c.toNat := c.valid
  simp only [escapeChar, if_neg hq, if_neg hb]
  by_cases h8 : c.toNat = 8
  · rw [if_pos h8, List.cons_append, List.cons_append, List.nil_append,
      parseBody_shortEscape 'b' (Char.ofNat 8) rest rfl]
    have hc : Char.ofNat 8 = c := by rw [← h8]; exact Char.ofNat_toNat c
    rw [hc]
  rw [if_neg h8]
  by_cases h9 : c.toNat = 9
  · rw [if_pos h9, List.cons_append, List.cons_append, List.nil_append,
      parseBody_shortEscape 't' '\t' rest rfl]
    have hc : '\t' = c := by
      have h := Char.ofNat_toNat c
      rw [h9] at h
      exact h
    rw [hc]
  rw [if_neg h9]
  by_cases h10 : c.toNat = 10
  · rw [if_pos h10, List.cons_append, List.cons_append, List.nil_append,
      parseBody_shortEscape 'n' '\n' rest rfl]
    have hc : '\n' = c := by
      have h := Char.ofNat_toNat c
      rw [h10] at h
      exact h
    rw [hc]
  rw [if_neg h10]
  by_cases h12 : c.toNat = 12
  · rw [if_pos h12, List.cons_append, List.cons_append, List.nil_append,
      parseBody_shortEscape 'f' (Char.ofNat 12) rest rfl]
    have hc : Char.ofNat 12 = c := by rw [← h12]; exact Char.ofNat_toNat c
    rw [hc]
  rw [if_neg h12]
  by_cases h13 : c.toNat = 13
  · rw [if_pos h13, List.cons_append, List.cons_append, List.nil_append,
      parseBody_shortEscape 'r' '\r' rest rfl]
    have hc : '\r' = c := by
      have h := Char.ofNat_toNat c
      rw [h13] at h
      exact h
    rw [hc]
  rw [if_neg h13]
  by_cases hctl : c.toNat < 0x20
  · rw [if_pos hctl, parseBody_uEscape rest c.toNat (by omega) (Or.inl (by omega)),
      Char.ofNat_toNat]
  rw [if_neg hctl]
  by_cases hasc : c.toNat < 0x7f
  · rw [if_pos hasc, List.singleton_append]
    exact parseBody_rawChar c rest hq hb (by omega)
  rw [if_neg hasc]
  by_cases hbmp : c.toNat < 0x10000
  · rw [if_pos hbmp]
    rcases hv with hlt | ⟨hgt, hub⟩
    · rw [parseBody_uEscape rest c.toNat (by omega) (Or.inl hlt), Char.ofNat_toNat]
    · rw [parseBody_uEscape rest c.toNat (by omega) (Or.inr hgt), Char.ofNat_toNat]
  · rw [if_neg hbmp, List.append_assoc,
      parseBody_surrogatePair rest c.toNat (by omega)
        (by rcases hv with h | ⟨h1, h2⟩ <;> omega),
      Char.ofNat_toNat]

/-- A whole encoded string body parses back to the original characters. -/
theorem parseBody_encodeList (l : List Char) (rest : List Char) :
    parseJStringBody (l.flatMap escapeChar ++ '"' :: rest) = .ok (l, rest) := by
  induction l with
  | nil => rfl
  | cons c cs ih =>
    rw [List.flatMap_cons, List.append_assoc, parseBody_escapeChar, ih]

theorem skipWs_head (c : Char) (rest : List Char) (h : isJsonWs c = false) :
    skipWs (c :: rest) = c :: rest := by
  simp [skipWs, h]

theorem skipWs_space (rest : List Char) : skipWs (' ' :: rest) = skipWs rest := by
  simp [skipWs, isJsonWs]

/-- `parseValue` on a quote: definitional unfolding. -/
theorem parseValue_strHead (fuel : Nat) (X : List Char) :
    parseValue (fuel + 1) ('"' :: X) =
      match parseJStringBody X with
      | .error e => .error e
      | .ok (s, r) => .ok (.str ⟨s⟩, r) := rfl

/-- A JSON string literal at the head of the input parses as a value. -/
theorem parseValue_encodedStr (fuel : Nat) (v : String) (rest : List Char) :
    parseValue (fuel + 1) (encodeJsonString v ++ rest) = .ok (.str v, rest) := by
  simp only [encodeJsonString, List.cons_append, List.append_assoc,
    List.singleton_append]
  rw [parseValue_strHead, parseBody_encodeList]
  simp only [List.nil_append]

/-- `parseMembers` on a quote: definitional unfolding. -/
theorem parseMembers_strHead (pv : List Char → Except String (Json × List Char))
    (fuel : Nat) (X : List Char) :
    parseMembers pv (fuel + 1) ('"' :: X) =
      match parseJStringBody X with
      | .error e => .error e
      | .ok (k, r1) =>
        match skipWs r1 with
        | ':' :: r2 =>
          match pv (skipWs r2) with
          | .error e => .error e
          | .ok (v, r3) =>
            match skipWs r3 with
            | ',' :: r4 =>
              match parseMembers pv fuel (skipWs r4) with
              | .error e => .error e
              | .ok (ms, r5) => .ok ((⟨k⟩, v) :: ms, r5)
            | '}' :: r4 => .ok ([(⟨k⟩, v)], r4)
            | _ => .error "Expecting delimiter"
        | _ => .error "Expecting colon delimiter" := rfl

/-- The member list `json.dumps` emits parses back to the original
pairs (values as JSON strings), consuming the closing brace. -/
theorem parseMembers_dumps (fuelv : Nat) :
    ∀ (fuel : Nat) (d : List (String × String)) (tail : List Char),
      d ≠ [] → d.length ≤ fuel →
      parseMembers (parseValue (fuelv + 1)) fuel
          (List.intercalate [',', ' '] (d.map memberChars) ++ '}' :: tail)
        = .ok (d.map (fun kv => (kv.1, Json.str kv.2)), tail) := by
  intro fuel d
  induction d generalizing fuel with
  | nil => intro tail hne _; exact absurd rfl hne
  | cons kv ds ih =>
    intro tail _ hlen
    obtain ⟨fuel0, rfl⟩ : ∃ k, fuel = k + 1 := by
      cases fuel with
      | zero => simp at hlen
      | succ k => exact ⟨k, rfl⟩
    cases hds : ds with
    | nil =>
      simp only [List.map_cons, List.map_nil, List.intercalate]
      simp only [List.intersperse, List.flatten, List.append_nil]
      simp only [memberChars, encodeJsonString, List.cons_append, List.append_assoc,
        List.singleton_append]
      rw [parseMembers_strHead, parseBody_encodeList]
      simp only [List.nil_append]
      rw [skipWs_head ':' _ (by decide)]
      simp only []
      rw [skipWs_space]
      rw [skipWs_head '"' _ (by decide)]
      rw [show ('"' : Char) :: (kv.2.data.flatMap escapeChar ++ '"' :: '}' :: tail)
            = encodeJsonString kv.2 ++ '}' :: tail by
          simp [encodeJsonString]]
      rw [parseValue_encodedStr]
      simp only []
      rw [skipWs_head '}' _ (by decide)]
      rfl
    | cons kv2 ds2 =>
      rw [← hds]
      have hdsne : ds ≠ [] := by rw [hds]; simp
      rw [List.map_cons,
        intercalate_cons_of_ne_nil [',', ' '] (memberChars kv) (ds.map memberChars)
          (by simp [hdsne])]
      simp only [memberChars, encodeJsonString, List.cons_append, List.append_assoc,
        List.singleton_append]
      rw [parseMembers_strHead, parseBody_encodeList]
      simp only [List.nil_append]
      rw [skipWs_head ':' _ (by decide)]
      simp only []
      rw [skipWs_space]
      rw [skipWs_head '"' _ (by decide)]
      rw [show ('"' : Char) :: (kv.2.data.flatMap escapeChar ++ '"' :: ',' :: ' ' ::
              (List.intercalate [',', ' '] (ds.map memberChars) ++ '}' :: tail))
            = encodeJsonString kv.2 ++ ',' :: ' ' ::
              (List.intercalate [',', ' '] (ds.map memberChars) ++ '}' :: tail) by
          simp [encodeJsonString]]
      rw [parseValue_encodedStr]
      simp only []
      rw [skipWs_head ',' _ (by decide)]
      simp only []
      rw [skipWs_space]
      have hhead : ∃ Y, List.intercalate [',', ' '] (ds.map memberChars) ++ '}' :: tail
          = '"' :: Y := by
        rw [hds]
        cases hh : ds2 with
        | nil =>
          simp [List.intercalate, List.intersperse, memberChars, encodeJsonString]
        | cons a b =>
          rw [List.map_cons, intercalate_cons_of_ne_nil [',', ' ']
            (memberChars kv2) ((a :: b).map memberChars) (by simp)]
          simp [memberChars, encodeJsonString]
      obtain ⟨Y, hY⟩ := hhead
      rw [hY, skipWs_head '"' _ (by decide), ← hY]
      rw [ih fuel0 tail hdsne (by simpa using Nat.lt_succ_iff.mp (Nat.lt_of_lt_of_le
        (Nat.lt_succ_of_le (Nat.le_refl _)) hlen))]
      simp only [List.map_cons]

/-- `parseValue` on an opening brace followed by a quote: definitional
unfolding into the member parser. -/
theorem parseValue_objHead_quote (fuel : Nat) (Y : List Char) :
    parseValue (fuel + 1) ('{' :: '"' :: Y) =
      match parseMembers (parseValue fuel) fuel ('"' :: Y) with
      | .error e => .error e
      | .ok (ms, r2) => .ok (.obj (collapsePairs ms), r2) := rfl

theorem memberChars_length_pos (kv : String × String) : 1 ≤ (memberChars kv).length := by
  simp [memberChars, encodeJsonString]

theorem intercalate_members_length (d : List (String × String)) :
    d.length ≤ (List.intercalate [',', ' '] (d.map memberChars)).length := by
  induction d with
  | nil => simp
  | cons kv ds ih =>
    cases hds : ds with
    | nil => simpa [List.intercalate, List.intersperse] using memberChars_length_pos kv
    | cons a b =>
      rw [← hds, List.map_cons, intercalate_cons_of_ne_nil _ _ _ (by simp [hds])]
      simp only [List.length_append, List.length_cons, List.length_nil]
      have h1 := memberChars_length_pos kv
      omega

theorem intercalate_members_head (d : List (String × String)) (tail : List Char)
    (h : d ≠ []) :
    ∃ Y, List.intercalate [',', ' '] (d.map memberChars) ++ '}' :: tail
        = '"' :: Y := by
  cases hd : d with
  | nil => exact absurd hd h
  | cons kv ds =>
    cases hds : ds with
    | nil =>
      simp [List.intercalate, List.intersperse, memberChars, encodeJsonString]
    | cons a b =>
      rw [List.map_cons, intercalate_cons_of_ne_nil [',', ' ']
        (memberChars kv) ((a :: b).map memberChars) (by simp)]
      simp [memberChars, encodeJsonString]

/-- `json.loads (json.dumps d)` recovers `d` up to `dict` duplicate-key
collapsing, values wrapped as JSON strings. -/
theorem pyLoads_pyDumps (d : List (String × String)) :
    pyLoads (pyDumps d)
      = .ok (.obj (collapsePairs (d.map (fun kv => (kv.1, Json.str kv.2))))) := by
  cases hd0 : d with
  | nil => rfl
  | cons kv0 ds0 =>
    rw [← hd0]
    have hdne : d ≠ [] := by rw [hd0]; simp
    simp only [pyLoads, pyDumps, List.cons_append]
    rw [skipWs_head '{' _ (by decide)]
    obtain ⟨Y, hY⟩ := intercalate_members_head d [] hdne
    rw [hY, parseValue_objHead_quote, ← hY]
    rw [show ('{' :: (List.intercalate [',', ' '] (d.map memberChars) ++ ['}'])).length
        = (List.intercalate [',', ' '] (d.map memberChars)).length + 1 + 1 by simp]
    rw [parseMembers_dumps ((List.intercalate [',', ' '] (d.map memberChars)).length + 1)
      ((List.intercalate [',', ' '] (d.map memberChars)).length + 1 + 1) d []
      hdne (by have := intercalate_members_length d; omega)]
    rfl

theorem upsertPair_not_mem (acc : List (String × Json)) (k : String) (v : Json)
    (h : ∀ p ∈ acc, p.1 ≠ k) : upsertPair acc k v = acc ++ [(k, v)] := by
  unfold upsertPair
  rw [if_neg]
  simp only [List.any_eq_true, decide_eq_true_eq, not_exists]
  intro p
  rw [not_and]
  exact h p

theorem collapse_go (l : List (String × Json)) :
    ∀ acc : List (String × Json),
      (∀ kv ∈ l, ∀ p ∈ acc, p.1 ≠ kv.1) →
      (l.map Prod.fst).Nodup →
      l.foldl (fun acc kv => upsertPair acc kv.1 kv.2) acc = acc ++ l := by
  induction l with
  | nil => intro acc _ _; simp
  | cons kv ls ih =>
    intro acc hdisj hnd
    rw [List.foldl_cons,
      upsertPair_not_mem acc kv.1 kv.2 (fun p hp => hdisj kv (by simp) p hp)]
    rw [ih (acc ++ [(kv.1, kv.2)]) ?_ ?_]
    · simp
    · intro kv2 h2 p hp
      rcases List.mem_append.mp hp with hmem | hmem
      · exact hdisj kv2 (List.mem_cons_of_mem _ h2) p hmem
      · simp only [List.mem_singleton] at hmem
        subst hmem
        simp only []
        intro hcontra
        have hk : kv.1 ∈ ls.map Prod.fst :=
          hcontra ▸ List.mem_map_of_mem Prod.fst h2
        exact (List.nodup_cons.mp (by simpa using hnd)).1 hk
    · exact (List.nodup_cons.mp (by simpa using hnd)).2

/-- With no duplicate keys, `dict(pairs)` keeps the pairs verbatim. -/
theorem collapsePairs_nodup (l : List (String × Json))
    (h : (l.map Prod.fst).Nodup) : collapsePairs l = l := by
  unfold collapsePairs
  simpa using collapse_go l [] (by simp) h

theorem ensure_str_str_dict_map (d : List (String × String)) :
    _ensure_str_str_dict (d.map (fun kv => (.str kv.1, .str kv.2))) = .ok d := by
  induction d with
  | nil => rfl
  | cons kv ds ih =>
    simp only [List.map_cons, _ensure_str_str_dict, ih]

theorem ensure_str_str_dict_nonStr (items : List (PyVal × PyVal))
    (h : ∃ kv ∈ items, kv.1 = PyVal.nonStr ∨ kv.2 = PyVal.nonStr) :
    _ensure_str_str_dict items = .error .invalidFileMap := by
  induction items with
  | nil => obtain ⟨kv, hmem, _⟩ := h; cases hmem
  | cons a rest ih =>
    obtain ⟨k, v⟩ := a
    cases k with
    | nonStr => rfl
    | str ks =>
      cases v with
      | nonStr => rfl
      | str vs =>
        obtain ⟨kv, hmem, hbad⟩ := h
        rcases List.mem_cons.mp hmem with heq | hmem2
        · subst heq
          rcases hbad with hb | hb <;> cases hb
        · have hrest : _ensure_str_str_dict rest = .error .invalidFileMap :=
            ih ⟨kv, hmem2, hbad⟩
          simp only [_ensure_str_str_dict, hrest]

/-- The serialized form of a duplicate-free `str -> str` dict parses
back to exactly that dict. -/
theorem parse_text_dumps (d : List (String × String))
    (hnd : (d.map Prod.fst).Nodup) :
    _parse_file_map (.text (pyDumps d)) = .ok d := by
  simp only [_parse_file_map, pyLoads_pyDumps d]
  rw [collapsePairs_nodup _ (by simpa [List.map_map, Function.comp] using hnd)]
  rw [List.map_map]
  have hcomp : ((fun kv : String × Json => (PyVal.str kv.1, jsonToPy kv.2)) ∘
      (fun kv : String × String => (kv.1, Json.str kv.2)))
      = fun kv : String × String => (PyVal.str kv.1, PyVal.str kv.2) := by
    funext kv
    rfl
  rw [hcomp, ensure_str_str_dict_map]

/-- C9: the two input forms (inline dict / serialized JSON text) are
resolved into the same canonical mapping and give pack the same result;
a dict with a non-string key or value fails with `InvalidFileMap`,
unparseable text fails with `InvalidJson`, parsed non-object JSON fails
with `InvalidFileMap`, and any other input type fails with
`InvalidFileMap`. -/
theorem c9_parser_equivalence :
    (∀ d : List (String × String), (d.map Prod.fst).Nodup →
      _parse_file_map (.text (pyDumps d))
          = _parse_file_map (.dict (d.map (fun kv => (.str kv.1, .str kv.2)))) ∧
      _parse_file_map (.text (pyDumps d)) = .ok d ∧
      ∀ (fs : FS) (base out : FsPath) (proj : String),
        json2file fs (.text (pyDumps d)) base out proj
          = json2file fs (.dict (d.map (fun kv => (.str kv.1, .str kv.2))))
              base out proj) ∧
    (∀ items : List (PyVal × PyVal),
      (∃ kv ∈ items, kv.1 = PyVal.nonStr ∨ kv.2 = PyVal.nonStr) →
      _parse_file_map (.dict items) = .error .invalidFileMap) ∧
    (∀ s : String, (∃ e, pyLoads s = .error e) →
      _parse_file_map (.text s) = .error .invalidJson) ∧
    (∀ (s : String) (j : Json), pyLoads s = .ok j → (∀ kvs, j ≠ .obj kvs) →
      _parse_file_map (.text s) = .error .invalidFileMap) ∧
    _parse_file_map .other = .error .invalidFileMap := by
  refine ⟨?_, ?_, ?_, ?_, rfl⟩
  · intro d hnd
    have h1 : _parse_file_map (.text (pyDumps d)) = .ok d := parse_text_dumps d hnd
    have h2 : _parse_file_map (.dict (d.map (fun kv => (.str kv.1, .str kv.2))))
        = .ok d := ensure_str_str_dict_map d
    exact ⟨h1.trans h2.symm, h1, fun fs base out proj => by
      simp only [json2file, h1, h2]⟩
  · intro items hbad
    exact ensure_str_str_dict_nonStr items hbad
  · rintro s ⟨e, he⟩
    simp [_parse_file_map, he]
  · intro s j hok hnonobj
    cases j with
    | obj kvs => exact absurd rfl (hnonobj kvs)
    | null => simp [_parse_file_map, hok]
    | bool b => simp [_parse_file_map, hok]
    | num x => simp [_parse_file_map, hok]
    | str x => simp [_parse_file_map, hok]
    | arr xs => simp [_parse_file_map, hok]

/-- Witness for C9 at concrete inputs. -/
theorem c9_parser_equivalence_witness :
    _parse_file_map (.text (pyDumps [("a.txt", "hi")])) = .ok [("a.txt", "hi")] ∧
    json2file ⟨[]⟩ (.text (pyDumps [("a.txt", "hi")])) ["b"] ["o"] "p"
      = json2file ⟨[]⟩ (.dict [(.str "a.txt", .str "hi")]) ["b"] ["o"] "p" ∧
    _parse_file_map (.dict [(.nonStr, .str "x")]) = .error .invalidFileMap ∧
    _parse_file_map (.text "not json") = .error .invalidJson ∧
    _parse_file_map (.text "1") = .error .invalidFileMap :=
  ⟨(c9_parser_equivalence.1 [("a.txt", "hi")] (by decide)).2.1,
   (c9_parser_equivalence.1 [("a.txt", "hi")] (by decide)).2.2 ⟨[]⟩ ["b"] ["o"] "p",
   c9_parser_equivalence.2.1 [(.nonStr, .str "x")]
     ⟨(.nonStr, .str "x"), by simp, Or.inl rfl⟩,
   c9_parser_equivalence.2.2.1 "not json" ⟨"Expecting value", rfl⟩,
   c9_parser_equivalence.2.2.2.1 "1" (.num "1") rfl
     (by intro kvs h; cases h)⟩
